import Mathlib

/-!
Verification of the solar-windowed animation scheduling and image-selection
engine of the nps-webcam-animation-generator repository.

The TypeScript sources are shallowly embedded: JS numbers that only ever hold
integers become `ℕ`/`ℤ`, fractional arithmetic becomes `ℚ`, JS `NaN` becomes
`Option` (`none` = NaN) with NaN-propagating operations, fallible operations
return `Option`/`Except`, and database tables become lists of row records.
-/

namespace NpsAnim

/-! ## Image-key timestamp parsing
(`src/animation-generator/src/logic/image.ts`, `extractTimestampFromImageKey`) -/

/-- Numeric value of a list of decimal digits, most significant first: this is
`parseInt(s, 10)` on an all-digit string (which is never `NaN`). -/
def digitsVal (ds : List Char) : ℕ :=
  ds.foldl (fun n c => 10 * n + (c.toNat - Char.toNat (Char.ofNat 48))) 0

/-- Match of the regex `^(\d+)\.[a-zA-Z]+$` against a filename, returning the
capture group `\d+`. Because the digit class and the literal dot are disjoint,
the greedy `(\d+)` group is exactly `takeWhile isDigit`; the rest of the match
requires a dot followed by a nonempty all-letter run reaching the end. -/
def matchRest (ds : List Char) : List Char → Option (List Char)
  | c :: tl =>
    if c = '.' ∧ ds ≠ [] ∧ tl ≠ [] ∧ tl.all (fun x => x.isAlpha) then some ds else none
  | [] => none

/-- The full regex match: the greedy digit group, then `matchRest` checks the
remaining dot and extension letters. -/
def matchTimestampStem (cs : List Char) : Option (List Char) :=
  matchRest (cs.takeWhile fun c => c.isDigit) (cs.dropWhile fun c => c.isDigit)

/-- JS `imageKey.split('/')` at the character level: the result always has at
least one (possibly empty) field, empty fields are kept, and `''.split('/')`
is `['']`. -/
def splitOnSlash : List Char → List (List Char)
  | [] => [[]]
  | c :: rest =>
    match splitOnSlash rest with
    | [] => [[]]
    | h :: t => if c = '/' then [] :: h :: t else (c :: h) :: t

/-- `extractTimestampFromImageKey(imageKey)`: split by `/`, take the last part
(`parts[parts.length - 1]`, embedded as `getLastD` — the split result is never
empty), match `^(\d+)\.[a-zA-Z]+$`, and return `parseInt` of the digit group,
else `null`. The function body is wrapped in `try/catch { return null }`; the
embedding is total, so the catch arm is unreachable. -/
def extractTimestampFromImageKey (imageKey : String) : Option ℕ :=
  let parts := splitOnSlash imageKey.toList
  let filename := parts.getLastD []
  (matchTimestampStem filename).map digitsVal

/-! ## Desampler (`src/unnamed/part_006`, `desampleImageKeys`) -/

/-- The `{ timestamp, key }` pairs built from parseable image keys. -/
structure TimedKey where
  timestamp : ℕ
  key : String
deriving DecidableEq, Repr, Inhabited

/-- Comparator order used by `imagesWithTimestamps.sort((a, b) => a.timestamp - b.timestamp)`. -/
def tsLe (a b : TimedKey) : Prop := a.timestamp ≤ b.timestamp

instance : DecidableRel tsLe := fun a b => Nat.decLe a.timestamp b.timestamp

instance : IsTotal TimedKey tsLe := ⟨fun a b => Nat.le_total a.timestamp b.timestamp⟩

instance : IsTrans TimedKey tsLe := ⟨fun _ _ _ h h2 => Nat.le_trans h h2⟩

/-- JS `Array.prototype.sort` is stable (ES2019); a stable sort by
nondecreasing timestamp is insertion sort with `≤`. -/
def sortByTs (l : List TimedKey) : List TimedKey := List.insertionSort tsLe l

/-- The `imagesWithTimestamps` list: keys whose timestamps parse, in input
order (`extractTimestampFromImageKey(imageKey) !== null` filter). -/
def parsedOf (keys : List String) : List TimedKey :=
  keys.filterMap fun k => (extractTimestampFromImageKey k).map fun t => ⟨t, k⟩

/-- `Math.abs(img.timestamp - targetTimestamp)`. -/
def dist (t : ℚ) (x : TimedKey) : ℚ := |(x.timestamp : ℚ) - t|

/-- The closest-image scan: starting from `closestImage = imagesWithTimestamps[0]`,
replace the running best whenever a strictly smaller difference is found
(ties keep the earliest-scanned element). -/
def scanClosest (t : ℚ) : TimedKey → List TimedKey → TimedKey
  | best, [] => best
  | best, x :: xs => if dist t x < dist t best then scanClosest t x xs else scanClosest t best xs

/-- The inner `for (const img of imagesWithTimestamps)` loop with
`closestImage` initialised to the first element. -/
def closestIn (l : List TimedKey) (t : ℚ) : TimedKey :=
  scanClosest t (l.headD default) l

/-- One iteration of the selection loop: `if (!selectedImages.includes(key)) push(key)`. -/
def selStep (sel : List String) (c : TimedKey) : List String :=
  if c.key ∈ sel then sel else sel ++ [c.key]

/-- `desampleImageKeys(sourceImages, totalImages)` from
`src/unnamed/part_006`, lines 39-131, translated branch by branch:
edge cases, the `length <= totalImages` early return, timestamp parsing,
stable sort, the all-valid-parsed early return, the zero-time-span slice,
the `totalImages === 1` / `=== 2` cases, and the evenly-spaced selection
loop (`interval = timeSpan / (totalImages - 1)`, float division embedded
as exact `ℚ` division) followed by the guarded append of the last image. -/
def desampleImageKeys (sourceImages : List String) (totalImages : ℤ) : List String :=
  if sourceImages.length = 0 ∨ totalImages ≤ 0 then []
  else if (sourceImages.length : ℤ) ≤ totalImages then sourceImages
  else
    let iwt := parsedOf sourceImages
    if iwt.length = 0 then []
    else
      let sorted := sortByTs iwt
      if (sorted.length : ℤ) ≤ totalImages then sorted.map fun x => x.key
      else
        let firstTimestamp := (sorted.headD default).timestamp
        let lastTimestamp := (sorted.getLastD default).timestamp
        let timeSpan : ℤ := (lastTimestamp : ℤ) - (firstTimestamp : ℤ)
        if timeSpan = 0 then (sorted.take totalImages.toNat).map fun x => x.key
        else
          let selectedImages := [(sorted.headD default).key]
          if totalImages = 1 then selectedImages
          else if totalImages = 2 then selectedImages ++ [(sorted.getLastD default).key]
          else
            let interval : ℚ := (timeSpan : ℚ) / ((totalImages : ℚ) - 1)
            let selected := (List.range' 1 (totalImages - 2).toNat).foldl
              (fun sel (i : ℕ) =>
                selStep sel (closestIn sorted ((firstTimestamp : ℚ) + interval * (i : ℚ))))
              selectedImages
            let lastImage := (sorted.getLastD default).key
            if lastImage ∈ selected then selected else selected ++ [lastImage]

/-- Timestamp encoded by a key, defaulting to `0`; used only to state
chronological ordering of desampler results. -/
def tsOfKey (k : String) : ℕ := (extractTimestampFromImageKey k).getD 0

/-- A key list is in chronological order of its encoded timestamps. -/
def ChronOrdered (l : List String) : Prop :=
  List.Pairwise (fun a b => tsOfKey a ≤ tsOfKey b) l

instance (l : List String) : Decidable (ChronOrdered l) :=
  List.instDecidablePairwise l

/-! ## Animation types, thresholds, storage keys
(`src/unnamed/part_006` lines 7-35, `src/unnamed/part_002` types) -/

/-- The union of the `AnimationType` alias in `types` and the keys of the
`minimums` record in `logic/animations` (which also lists `on_demand`). -/
inductive AnimationType
  | hourly
  | sunrise
  | sunset
  | full_day
  | on_demand
deriving DecidableEq, Repr

/-- The string spelling of each animation type. -/
def AnimationType.str : AnimationType → String
  | .hourly => "hourly"
  | .sunrise => "sunrise"
  | .sunset => "sunset"
  | .full_day => "full_day"
  | .on_demand => "on_demand"

/-- The `minimums` record literal inside `hasMinimumImages`. -/
def minimums : AnimationType → ℕ
  | .hourly => 5
  | .sunrise => 3
  | .sunset => 3
  | .full_day => 10
  | .on_demand => 3

/-- `hasMinimumImages(animationType, imageCount)`: `imageCount >= minimums[animationType]`. -/
def hasMinimumImages (animationType : AnimationType) (imageCount : ℕ) : Bool :=
  minimums animationType ≤ imageCount

/-- JS template interpolation of a possibly-`undefined` value: `undefined`
renders as the string `undefined`. -/
def jsUndefinedOr : Option String → String
  | some s => s
  | none => "undefined"

/-- `generateAnimationStorageKey(nationalPark, webcamName, animationType,
dateStamp, hourStr?)`: template-literal concatenation with a `.mp4` extension,
hourly keys getting a `_${hourStr}` infix. -/
def generateAnimationStorageKey (nationalPark webcamName : String)
    (animationType : AnimationType) (dateStamp : String) (hourStr : Option String) : String :=
  if animationType = .hourly then
    "gifs/" ++ nationalPark ++ "/" ++ webcamName ++ "/" ++ animationType.str ++ "/" ++
      dateStamp ++ "_" ++ jsUndefinedOr hourStr ++ ".mp4"
  else
    "gifs/" ++ nationalPark ++ "/" ++ webcamName ++ "/" ++ animationType.str ++ "/" ++
      dateStamp ++ ".mp4"

/-! ## JS number model for solar arithmetic

Solar event times are JS numbers that are either finite UTC-millisecond values
or `NaN` (the event does not occur).  They are embedded as `Option ℚ` with
`none` = `NaN`; `+`, `-` and scaling propagate `NaN` exactly as IEEE floats do
(the finite values in play never overflow). -/

/-- NaN-propagating addition. -/
def jadd : Option ℚ → Option ℚ → Option ℚ
  | some a, some b => some (a + b)
  | _, _ => none

/-- NaN-propagating subtraction. -/
def jsub : Option ℚ → Option ℚ → Option ℚ
  | some a, some b => some (a - b)
  | _, _ => none

/-- NaN-propagating multiplication by a finite literal (here `0.25`). -/
def jmul (c : ℚ) : Option ℚ → Option ℚ
  | some a => some (c * a)
  | none => none

/-- `new Date(x).getTime()` for a finite `x`: `TimeClip` truncates the
millisecond value toward zero. -/
def jsTrunc (q : ℚ) : ℤ := if 0 ≤ q then ⌊q⌋ else ⌈q⌉

/-- The `SolarTimes` interface of `logic/solar-calculations`: UTC millisecond
timestamps or NaN.  Values are produced by the external SunCalc library
(not part of this repository), so they enter the embedding as data.
`dayLength` is carried but unused by the scheduler. -/
structure SolarTimes where
  sunrise : Option ℚ
  sunset : Option ℚ
  firstLight : Option ℚ
  lastLight : Option ℚ
  dayLength : ℚ
deriving DecidableEq, Repr

/-- `sunriseDuration = solarTimes.sunrise - solarTimes.firstLight`. -/
def sunriseDurationOf (st : SolarTimes) : Option ℚ := jsub st.sunrise st.firstLight

/-- `sunsetDuration = solarTimes.lastLight - solarTimes.sunset`. -/
def sunsetDurationOf (st : SolarTimes) : Option ℚ := jsub st.lastLight st.sunset

/-- `lightStart = solarTimes.firstLight - (0.25 * sunriseDuration)`. -/
def lightStartOf (st : SolarTimes) : Option ℚ :=
  jsub st.firstLight (jmul (1 / 4) (sunriseDurationOf st))

/-- `sunriseEnd = solarTimes.sunrise + (0.25 * sunriseDuration)`. -/
def sunriseEndOf (st : SolarTimes) : Option ℚ :=
  jadd st.sunrise (jmul (1 / 4) (sunriseDurationOf st))

/-- `sunsetStart = solarTimes.sunset - (0.25 * sunsetDuration)`. -/
def sunsetStartOf (st : SolarTimes) : Option ℚ :=
  jsub st.sunset (jmul (1 / 4) (sunsetDurationOf st))

/-- `lightEnd = solarTimes.lastLight + (0.25 * sunsetDuration)`. -/
def lightEndOf (st : SolarTimes) : Option ℚ :=
  jadd st.lastLight (jmul (1 / 4) (sunsetDurationOf st))

/-! ## Scheduler (`src/unnamed/part_003`, `createAnimationEntry` and the
per-webcam body of `createTodaysAnimations`) -/

/-- The columns of the `webcams` table used by the scheduler. -/
structure WebcamDto where
  id : ℤ
  name : String
  nationalPark : Option String
  timezone : Option String
  latLon : Option String
  enabled : Bool
deriving DecidableEq, Repr

/-- The timezone-dependent date formatting delegated to the external luxon
library and to `logic/timezone` (not decided by any claim): `yyyyMMdd` and
2-digit local hour of an epoch-second instant, the local `YYYY-MM-DD` date key
of an epoch-millisecond instant, and the ambient `new Date().toISOString()`. -/
structure DateFmt where
  toFormatYyyyMMdd : ℤ → String → String
  toHour2 : ℤ → String → String
  localDateKey : ℤ → String → String
  nowIso : String

/-- GIF processing status (`types`): `'waiting_for_images' | 'pending' |
'processing' | 'completed' | 'failed'`. -/
inductive AnimationStatus
  | waiting_for_images
  | pending
  | processing
  | completed
  | failed
deriving DecidableEq, Repr

/-- The string spelling of each status. -/
def AnimationStatus.str : AnimationStatus → String
  | .waiting_for_images => "waiting_for_images"
  | .pending => "pending"
  | .processing => "processing"
  | .completed => "completed"
  | .failed => "failed"

/-- The `AnimationQueueEntry` interface (`src/unnamed/part_002`).
`scheduled_time` is an ISO string in the source; it is embedded as the epoch
millisecond instant that string denotes. -/
structure AnimationQueueEntry where
  id : ℕ
  webcam_id : ℤ
  reference_id : String
  gif_type : AnimationType
  scheduled_time : ℤ
  date_key : String
  image_list : List String
  status : AnimationStatus
  created_at : String
  processed_at : Option String
  error_message : Option String
  start_time : ℤ
  end_time : ℤ
  gif_storage_key : Option String
deriving DecidableEq, Repr

/-- `createAnimationEntry(webcam, animationType, scheduledTime, startTime, endTime)`.
The storage key call passes `scheduledTime.getTime()` — a number — where the
parameter is declared `dateStamp: string` (the template literal renders its
decimal digits), and omits the `hourStr` argument (so hourly keys render
`undefined`); the embedding keeps both faithfully. -/
def createAnimationEntry (fmt : DateFmt) (webcam : WebcamDto)
    (animationType : AnimationType) (scheduledTimeMs : ℤ)
    (startTime endTime : ℤ) : AnimationQueueEntry :=
  let dateStr := fmt.toFormatYyyyMMdd startTime (webcam.timezone.getD "")
  let hourStr := fmt.toHour2 startTime (webcam.timezone.getD "")
  let referenceId :=
    if animationType = .hourly then
      toString webcam.id ++ "_" ++ animationType.str ++ "_" ++ dateStr ++ "_" ++ hourStr
    else
      toString webcam.id ++ "_" ++ animationType.str ++ "_" ++ dateStr
  let storageKey := generateAnimationStorageKey (webcam.nationalPark.getD "unknown")
    webcam.name animationType (toString scheduledTimeMs) none
  let dateKey := fmt.localDateKey scheduledTimeMs (webcam.timezone.getD "America/Denver")
  { id := 0
    webcam_id := webcam.id
    reference_id := referenceId
    gif_type := animationType
    scheduled_time := scheduledTimeMs
    date_key := dateKey
    image_list := []
    status := .waiting_for_images
    created_at := fmt.nowIso
    processed_at := none
    error_message := none
    start_time := startTime
    end_time := endTime
    gif_storage_key := some storageKey }

/-- The sunrise block of `createTodaysAnimations` (lines 124-136): guarded by
`!isNaN(lightStart) && !isNaN(lightEnd)`, scheduled at
`new Date(sunriseEnd + 1*60*1000)`, window `[Math.floor(lightStart/1000),
Math.floor(sunriseEnd/1000)]`.  Inside the guard `sunriseEnd` is never NaN
(it is finite whenever `lightStart` is, both needing finite `firstLight` and
`sunrise`), so `getD 0` is plain unwrapping. -/
def sunriseJobs (fmt : DateFmt) (webcam : WebcamDto) (st : SolarTimes) :
    List AnimationQueueEntry :=
  match lightStartOf st, lightEndOf st with
  | some ls, some _ =>
    let se := (sunriseEndOf st).getD 0
    [createAnimationEntry fmt webcam .sunrise (jsTrunc (se + 60000)) ⌊ls / 1000⌋ ⌊se / 1000⌋]
  | _, _ => []

/-- The sunset block (lines 139-150): guarded by
`!isNaN(sunsetStart) && !isNaN(lightEnd)`, scheduled at `lightEnd + 1 min`. -/
def sunsetJobs (fmt : DateFmt) (webcam : WebcamDto) (st : SolarTimes) :
    List AnimationQueueEntry :=
  match sunsetStartOf st, lightEndOf st with
  | some ss, some le =>
    [createAnimationEntry fmt webcam .sunset (jsTrunc (le + 60000)) ⌊ss / 1000⌋ ⌊le / 1000⌋]
  | _, _ => []

/-- The full-day block (lines 153-163). -/
def fullDayJobs (fmt : DateFmt) (webcam : WebcamDto) (st : SolarTimes) :
    List AnimationQueueEntry :=
  match lightStartOf st, lightEndOf st with
  | some ls, some le =>
    [createAnimationEntry fmt webcam .full_day (jsTrunc (le + 60000)) ⌊ls / 1000⌋ ⌊le / 1000⌋]
  | _, _ => []

/-- The hourly block (lines 166-199).  `setMinutes(0,0,0)` floors the (UTC)
Date to its hour; if that is before `solarTimes.firstLight` one hour is added;
then one entry per whole hour whose end does not pass `lightEnd`, scheduled 5
minutes after the hour ends.  The while loop over `currentHour < lightEnd` is
rendered as a range of its iteration count. -/
def hourlyJobs (fmt : DateFmt) (webcam : WebcamDto) (st : SolarTimes) :
    List AnimationQueueEntry :=
  match lightStartOf st, lightEndOf st with
  | some ls, some le =>
    let startMs0 := 3600000 * Int.fdiv (jsTrunc ls) 3600000
    let startMs :=
      if (startMs0 : ℚ) < (st.firstLight.getD 0) then startMs0 + 3600000 else startMs0
    let endMs := jsTrunc le
    let cnt := (((endMs - startMs) + 3599999).fdiv 3600000).toNat
    (List.range cnt).filterMap fun k =>
      let cur := startMs + (k : ℤ) * 3600000
      let nxt := cur + 3600000
      if nxt ≤ endMs then
        some (createAnimationEntry fmt webcam .hourly (nxt + 300000)
          (Int.fdiv cur 1000) (Int.fdiv nxt 1000))
      else none
  | _, _ => []

/-- All queue entries pushed for one webcam by the body of
`createTodaysAnimations`, in push order. -/
def scheduleWebcamAnimations (fmt : DateFmt) (webcam : WebcamDto) (st : SolarTimes) :
    List AnimationQueueEntry :=
  sunriseJobs fmt webcam st ++ sunsetJobs fmt webcam st ++
    fullDayJobs fmt webcam st ++ hourlyJobs fmt webcam st

/-! ## Animation queue repository (`src/unnamed/part_007`)
The `gif_creation_queue` table is embedded as a list of rows; the row shape
follows the drizzle schema in `src/unnamed/part_002`. -/

/-- A row of the `gif_creation_queue` table. -/
structure QueueRow where
  id : ℕ
  webcamId : ℤ
  referenceId : String
  gifType : AnimationType
  scheduledTime : ℤ
  imageList : List String
  status : AnimationStatus
  createdAt : String
  processedAt : Option String
  errorMessage : Option String
  startTime : ℤ
  endTime : ℤ
  gifStorageKey : Option String
  dateKey : Option String
deriving DecidableEq, Repr

/-- SQLite `AUTOINCREMENT`: the id of a freshly inserted row exceeds every id
used so far. -/
def nextId (q : List QueueRow) : ℕ := q.foldl (fun m r => max m r.id) 0 + 1

/-- `toInsert(x)` from `AnimationQueueRepository`, mapping an
`AnimationQueueEntry` to the column record, with the id the database assigns. -/
def toInsertRow (id : ℕ) (x : AnimationQueueEntry) : QueueRow :=
  { id := id
    webcamId := x.webcam_id
    referenceId := x.reference_id
    gifType := x.gif_type
    scheduledTime := x.scheduled_time
    imageList := x.image_list
    status := x.status
    createdAt := x.created_at
    processedAt := x.processed_at
    errorMessage := x.error_message
    startTime := x.start_time
    endTime := x.end_time
    gifStorageKey := x.gif_storage_key
    dateKey := some x.date_key }

/-- `addAnimationsToQueue(animations)`: one plain
`db.insert(gifCreationQueue).values(animation)` per entry.  Neither the
function nor the schema checks `reference_id` for uniqueness: both the
drizzle schema and the migration declare only the non-unique index
`idx_gif_queue_reference` on that column, so every insert appends a row. -/
def addAnimationsToQueue (q : List QueueRow) (animations : List AnimationQueueEntry) :
    List QueueRow :=
  animations.foldl (fun acc a => acc ++ [toInsertRow (nextId acc) a]) q

/-- Number of queue rows carrying a given reference key. -/
def countReference (q : List QueueRow) (referenceId : String) : ℕ :=
  (q.filter fun r => r.referenceId == referenceId).length

/-- The result record of `markAnimationCompleted`:
`{ success, message, queue_entry_id?, status? }`. -/
structure MarkResult where
  success : Bool
  message : String
  queue_entry_id : Option ℕ
  statusField : Option String
deriving DecidableEq, Repr

/-- `markAnimationCompleted(id)`: select the entry by id (`limit 1`); if
absent return the not-found failure; if its status is not `'pending'` return
the conflict failure naming the current status and leave the table unchanged;
otherwise set the row's status to `'completed'` with `processedAt = new
Date().toISOString()` (passed in as `nowIso`) and report success. -/
def markAnimationCompleted (q : List QueueRow) (id : ℕ) (nowIso : String) :
    MarkResult × List QueueRow :=
  match q.find? fun r => r.id == id with
  | none =>
    ({ success := false
       message := "Animation queue entry with ID " ++ toString id ++ " not found"
       queue_entry_id := none
       statusField := none }, q)
  | some entry =>
    if entry.status ≠ .pending then
      ({ success := false
         message := "Animation is not in pending status. Current status: " ++ entry.status.str
         queue_entry_id := none
         statusField := none }, q)
    else
      ({ success := true
         message := "Animation marked as completed successfully"
         queue_entry_id := some id
         statusField := some "completed" },
       q.map fun r =>
         if r.id == id then { r with status := .completed, processedAt := some nowIso } else r)

/-! ## Queue advancement
(`src/animation-generator/src/tasks/animationFinalization.ts`,
`prepareAnimationsForPendingQueue`) -/

/-- One `updateAnimationWithImages(id, status, imageKeys, errorMessage?)`
write produced while advancing a waiting entry. -/
structure UpdateOp where
  id : ℕ
  status : AnimationStatus
  imageList : List String
  errorMessage : Option String
deriving DecidableEq, Repr

/-- The collaborators the advancement loop calls per entry.  A repository
exception while fetching the image range is the `.error` case of `Except`
(caught by the per-item `try/catch`). -/
structure FinalizeEnv where
  getWebcamById : ℤ → Option WebcamDto
  getImagesForTimeRange : WebcamDto → ℤ → ℤ → Except String (List String)

/-- The `switch (animation.gifType)` computing `totalImages`.  Only the
`full_day` case ends in `break`; the `hourly` assignment
(`Math.min(4*15, len)`) falls through, the `sunrise`/`sunset` arm evaluates
`Math.min(8*15, len)` without assigning it, and control reaches the
`on_demand`/`default` arm, which overwrites `totalImages = imageKeys.length`.
Net effect: `full_day ↦ min 150 len`, everything else `↦ len`. -/
def totalImagesFor (gifType : AnimationType) (len : ℕ) : ℕ :=
  match gifType with
  | .full_day => min 150 len
  | _ => len

/-- `updateAnimationWithImages(id, 'failed', [], msg)`. -/
def failedOp (id : ℕ) (msg : String) : UpdateOp := ⟨id, .failed, [], some msg⟩

/-- The insufficient-images error message, verbatim from the source template
literal: it interpolates the desampled count and the raw fetched count. -/
def insufficientMsg (selCount rawCount : ℕ) (gifType : AnimationType) : String :=
  "Insufficient images: found " ++ toString selCount ++ " after desampling from " ++
    toString rawCount ++ ", required minimum for " ++ gifType.str

/-- The body of the per-animation `try` block after the webcam lookup: the
explicit `throw` on a missing (`0`/null — JS falsy) start or end time, the
image-range fetch, the `totalImages` switch, the desample call, and the
`hasMinimumImages` decision between the `'pending'` and `'failed'` updates. -/
def runFinalizeBody (env : FinalizeEnv) (webcam : WebcamDto) (animation : QueueRow) :
    Except String UpdateOp :=
  if animation.startTime = 0 ∨ animation.endTime = 0 then
    Except.error "start or end time not defined"
  else
    match env.getImagesForTimeRange webcam animation.startTime animation.endTime with
    | .error e => .error e
    | .ok imageKeys =>
      let selectedImageKeys :=
        desampleImageKeys imageKeys (totalImagesFor animation.gifType imageKeys.length : ℤ)
      if hasMinimumImages animation.gifType selectedImageKeys.length then
        .ok ⟨animation.id, .pending, selectedImageKeys, none⟩
      else
        .ok (failedOp animation.id
          (insufficientMsg selectedImageKeys.length imageKeys.length animation.gifType))

/-- Processing of one candidate entry inside the loop: a missing webcam
produces the `'failed'` update with message `Webcam not found`; any exception
thrown inside the `try` block is caught and converted to the `'failed'`
update with the `Processing error: ...` message. -/
def processOneAnimation (env : FinalizeEnv) (animation : QueueRow) : UpdateOp :=
  match env.getWebcamById animation.webcamId with
  | none => failedOp animation.id "Webcam not found"
  | some webcam =>
    match runFinalizeBody env webcam animation with
    | .ok u => u
    | .error e => failedOp animation.id ("Processing error: " ++ e)

/-- `prepareAnimationsForPendingQueue` over an already-fetched batch of
waiting candidates: the `for (const animation of animations)` loop issues one
update per entry and always continues to the next entry (each iteration is
wrapped in its own `try/catch`). -/
def prepareAnimationsForPendingQueue (env : FinalizeEnv) (animations : List QueueRow) :
    List UpdateOp :=
  animations.map (processOneAnimation env)

/-! ## Retention policies (`src/unnamed/part_004`,
`SolarNoonRetentionPolicy` and `SunsetRetentionPolicy`) -/

/-- A row of the `images` table as used by the retention policies. -/
structure ImageRow where
  id : ℕ
  webcamId : ℤ
  timeStamp : ℤ
  objectName : String
  retentionPolicy : Option (List String)
deriving DecidableEq, Repr

/-- The collaborators of a retention policy `apply` call:
`getAllWebcams`, `calculateWebcamSolarTimes(latLon, ms)` (delegating to the
external SunCalc library) and `getImagesForTimeRange`. -/
structure RetentionEnv where
  getAllWebcams : List WebcamDto
  solar : Option String → ℚ → Option SolarTimes
  getImagesForTimeRange : WebcamDto → ℚ → ℚ → List ImageRow

/-- A persisted tag mutation (`putImage` after editing `retentionPolicy`). -/
inductive TagOp
  | removeTag (imageId : ℕ) (tag : String)
  | addTag (imageId : ℕ) (tag : String)
deriving DecidableEq, Repr

/-- `Math.abs(x.timeStamp * 1000 - imageTime)`, the comparator key of the
closest-image sort in the SolarNoon and Sunset policies. -/
def distTo (target : ℚ) (img : ImageRow) : ℚ := |(img.timeStamp : ℚ) * 1000 - target|

/-- Comparator order of `images.sort((a, b) => distTo(a) - distTo(b))`. -/
def distLe (target : ℚ) (a b : ImageRow) : Prop := distTo target a ≤ distTo target b

instance (target : ℚ) : DecidableRel (distLe target) :=
  fun a b => inferInstanceAs (Decidable (distTo target a ≤ distTo target b))

/-- The body of the SolarNoon policy's per-day loop: skip when solar times
are unavailable or a landmark is NaN, target the sunrise/sunset midpoint,
fetch the ±15-minute window, pick the stably-sorted closest image, emit tag
removals for other tagged images and the tag addition when the chosen image
is not already tagged. -/
def solarNoonDay (env : RetentionEnv) (webcam : WebcamDto) (dayMs : ℚ) : List TagOp :=
  match env.solar webcam.latLon dayMs with
  | none => []
  | some st =>
    match st.sunrise, st.sunset with
    | some sr, some ss =>
      let imageTime : ℚ := (sr + ss) / 2
      let images := env.getImagesForTimeRange webcam (imageTime - 900000) (900000 + imageTime)
      match (List.insertionSort (distLe imageTime) images).head? with
      | none => []
      | some chosen =>
        let others := images.filter fun x => x.id ≠ chosen.id
        let needsRemoved :=
          others.filter fun x => (x.retentionPolicy.getD []).any fun s => s == "SolarNoon"
        let removals := needsRemoved.map fun x => TagOp.removeTag x.id "SolarNoon"
        if (chosen.retentionPolicy.getD []).any fun s => s == "SolarNoon" then removals
        else removals ++ [TagOp.addTag chosen.id "SolarNoon"]
    | _, _ => []

/-- `SolarNoonRetentionPolicy.apply(repo, start, end)`: for each webcam the
source declares `const days: Date[] = [];` under the comment "calculate all
the unique days in the time range in the webcams given timezone" and never
populates it ("empty for now"), then loops over `days`. -/
def applySolarNoonRetentionPolicy (env : RetentionEnv) (_startSec _endSec : ℤ) : List TagOp :=
  env.getAllWebcams.flatMap fun webcam =>
    let days : List ℚ := []
    days.flatMap fun day => solarNoonDay env webcam day

/-- The body of the Sunset policy's per-day loop: target the
sunset/last-light midpoint with the `[-15 min, +5 min]` search window and the
`Sunset` tag; otherwise identical in shape to the SolarNoon body. -/
def sunsetDay (env : RetentionEnv) (webcam : WebcamDto) (dayMs : ℚ) : List TagOp :=
  match env.solar webcam.latLon dayMs with
  | none => []
  | some st =>
    match st.sunset, st.lastLight with
    | some ss, some ll =>
      let imageTime : ℚ := (ss + ll) / 2
      let images := env.getImagesForTimeRange webcam (imageTime - 900000) (300000 + imageTime)
      match (List.insertionSort (distLe imageTime) images).head? with
      | none => []
      | some chosen =>
        let others := images.filter fun x => x.id ≠ chosen.id
        let needsRemoved :=
          others.filter fun x => (x.retentionPolicy.getD []).any fun s => s == "Sunset"
        let removals := needsRemoved.map fun x => TagOp.removeTag x.id "Sunset"
        if (chosen.retentionPolicy.getD []).any fun s => s == "Sunset" then removals
        else removals ++ [TagOp.addTag chosen.id "Sunset"]
    | _, _ => []

/-- `SunsetRetentionPolicy.apply(repo, start, end)`: same skeleton as the
SolarNoon policy, with the same never-populated `const days: Date[] = [];`. -/
def applySunsetRetentionPolicy (env : RetentionEnv) (_startSec _endSec : ℤ) : List TagOp :=
  env.getAllWebcams.flatMap fun webcam =>
    let days : List ℚ := []
    days.flatMap fun day => sunsetDay env webcam day

/-! ## Concrete fixtures used by closed theorems and witnesses -/

/-- A trivial formatting bundle (the timezone formatting is external and does
not influence any claim settled here). -/
def defaultFmt : DateFmt :=
  { toFormatYyyyMMdd := fun _ _ => ""
    toHour2 := fun _ _ => ""
    localDateKey := fun _ _ => ""
    nowIso := "" }

/-- The Denver webcam of the repository's own scheduler test. -/
def denverWebcam : WebcamDto :=
  { id := 1
    name := "Denver Cam"
    nationalPark := some "Rocky Mountain"
    timezone := some "America/Denver"
    latLon := some "39.740,-104.975"
    enabled := true }

/-- A sunrise entry such as the scheduler generates for 2025-09-24. -/
def sampleSunriseEntry : AnimationQueueEntry :=
  { id := 0
    webcam_id := 1
    reference_id := "1_sunrise_20250924"
    gif_type := .sunrise
    scheduled_time := 1758718800000
    date_key := "2025-09-24"
    image_list := []
    status := .waiting_for_images
    created_at := ""
    processed_at := none
    error_message := none
    start_time := 1758712841
    end_time := 1758718643
    gif_storage_key := some "gifs/Rocky Mountain/Denver Cam/sunrise/1758718800000.mp4" }

/-- The environment of the C4 witness: webcam `1` exists, and the image fetch
returns three parseable keys. -/
def witnessEnv4 : FinalizeEnv :=
  { getWebcamById := fun i => if i = 1 then some denverWebcam else none
    getImagesForTimeRange := fun _ _ _ =>
      Except.ok ["c/1.jpg", "c/2.jpg", "c/3.jpg"] }

/-- The waiting sunrise row of the C4 witness. -/
def witnessRow4 : QueueRow :=
  { id := 7
    webcamId := 1
    referenceId := "1_sunrise_20250924"
    gifType := .sunrise
    scheduledTime := 1758718860000
    imageList := []
    status := .waiting_for_images
    createdAt := ""
    processedAt := none
    errorMessage := none
    startTime := 1758712841
    endTime := 1758718643
    gifStorageKey := none
    dateKey := some "2025-09-24" }

/-- The environment of the C5 witness: no webcam exists. -/
def witnessEnv5 : FinalizeEnv :=
  { getWebcamById := fun _ => none
    getImagesForTimeRange := fun _ _ _ => Except.ok [] }

/-- A processing-status row for the C6 witness. -/
def witnessRow6 : QueueRow :=
  { witnessRow4 with id := 9, status := .processing }

/-- Solar times of a polar day on which the sun rises but never sets:
sunrise and first light are finite, sunset and last light are NaN. -/
def stNoSunset : SolarTimes :=
  { sunrise := some 3600000
    sunset := none
    firstLight := some 0
    lastLight := none
    dayLength := 0 }

/-- Everyday solar times with all four events finite. -/
def stAllFinite : SolarTimes :=
  { sunrise := some 3600000
    sunset := some 36000000
    firstLight := some 0
    lastLight := some 39600000
    dayLength := 10 }

/-- The target timestamp of intermediate slot `i`:
`firstTimestamp + interval * i`. -/
def mainTarget (keys : List String) (n : ℤ) (i : ℕ) : ℚ :=
  (((sortByTs (parsedOf keys)).headD default).timestamp : ℚ) +
    (((((sortByTs (parsedOf keys)).getLastD default).timestamp : ℤ) -
        (((sortByTs (parsedOf keys)).headD default).timestamp : ℤ) : ℤ) : ℚ) /
      ((n : ℚ) - 1) * (i : ℚ)

/-- The candidate picks of the intermediate-slot loop, in loop order. -/
def mainCands (keys : List String) (n : ℤ) : List TimedKey :=
  (List.range' 1 (n - 2).toNat).map fun i =>
    closestIn (sortByTs (parsedOf keys)) (mainTarget keys n i)

/-- The selection list after the loop and the guarded final append of the
last image. -/
def mainResult (keys : List String) (n : ℤ) : List String :=
  let selected :=
    (mainCands keys n).foldl selStep [((sortByTs (parsedOf keys)).headD default).key]
  if ((sortByTs (parsedOf keys)).getLastD default).key ∈ selected then selected
  else selected ++ [((sortByTs (parsedOf keys)).getLastD default).key]

/-! ## Claim C1 -/

theorem addAnimationsToQueue_length (anims : List AnimationQueueEntry) :
    ∀ q : List QueueRow, (addAnimationsToQueue q anims).length = q.length + anims.length := by
  induction anims with
  | nil => intro q; simp [addAnimationsToQueue]
  | cons a as ih =>
    intro q
    have h : addAnimationsToQueue q (a :: as) =
        addAnimationsToQueue (q ++ [toInsertRow (nextId q) a]) as := rfl
    rw [h, ih]
    simp
    omega

/-- C1.  The claim asserts scheduling is idempotent on the reference key:
persisting a generated job whose reference key already exists must not add a
second row with that key.  The code violates it: `addAnimationsToQueue` issues
one unconditional `INSERT` per entry and no uniqueness constraint exists on
`reference_id` (the schema and migration declare only the plain index
`idx_gif_queue_reference`), so persisting the same generated entry twice —
exactly what two scheduler runs for the same date do — yields two rows with
reference key `1_sunrise_20250924`; in general every insert grows the table. -/
theorem claim1_reference_key_insert_not_idempotent :
    countReference
      (addAnimationsToQueue (addAnimationsToQueue [] [sampleSunriseEntry]) [sampleSunriseEntry])
      "1_sunrise_20250924" = 2 ∧
    (∀ (q : List QueueRow) (anims : List AnimationQueueEntry),
      (addAnimationsToQueue q anims).length = q.length + anims.length) := by
  constructor
  · decide
  · intro q anims; exact addAnimationsToQueue_length anims q

/-! ## Claim C9 -/

/-- C9.  The claim (and the spec) require: for every webcam and every unique
local calendar day overlapping the input range, the SolarNoon and Sunset
retention policies perform one image selection for that day, so a multi-day
range yields selections, not zero.  The code cannot: in both policies the
per-webcam day list is the hardcoded `const days: Date[] = []` ("empty for
now") and is never populated, so `apply` performs no selection and no tag
operation for any environment and any range whatsoever. -/
theorem claim9_retention_policies_are_noops :
    ∀ (env : RetentionEnv) (startSec endSec : ℤ),
      applySolarNoonRetentionPolicy env startSec endSec = [] ∧
      applySunsetRetentionPolicy env startSec endSec = [] := by
  intro env s e
  constructor
  · unfold applySolarNoonRetentionPolicy
    induction env.getAllWebcams with
    | nil => rfl
    | cons w ws ih => simp [List.flatMap_cons]
  · unfold applySunsetRetentionPolicy
    induction env.getAllWebcams with
    | nil => rfl
    | cons w ws ih => simp [List.flatMap_cons]

/-! ## Claim C4 -/

/-- C4.  Advancement of a waiting entry whose webcam exists, whose window is
defined and whose image fetch succeeds: when the desampled list meets the
type's minimum-image threshold the entry is updated to the ready (`'pending'`)
state with the desampled key list stored; otherwise it is updated to
`'failed'` with the message that interpolates both the desampled and the raw
image counts.  The thresholds are hourly 5, sunrise 3, sunset 3, full_day 10,
on_demand 3; in particular `hasMinimumImages('hourly', 4)` is false and
`hasMinimumImages('hourly', 5)` is true. -/
theorem claim4_threshold_decides_ready_or_failed :
    ∀ (env : FinalizeEnv) (animation : QueueRow) (webcam : WebcamDto)
      (imageKeys : List String),
      env.getWebcamById animation.webcamId = some webcam →
      animation.startTime ≠ 0 →
      animation.endTime ≠ 0 →
      env.getImagesForTimeRange webcam animation.startTime animation.endTime =
        Except.ok imageKeys →
      ((hasMinimumImages animation.gifType
          (desampleImageKeys imageKeys
            (totalImagesFor animation.gifType imageKeys.length : ℤ)).length = true →
        processOneAnimation env animation =
          ⟨animation.id, .pending,
            desampleImageKeys imageKeys
              (totalImagesFor animation.gifType imageKeys.length : ℤ), none⟩) ∧
       (hasMinimumImages animation.gifType
          (desampleImageKeys imageKeys
            (totalImagesFor animation.gifType imageKeys.length : ℤ)).length = false →
        processOneAnimation env animation =
          failedOp animation.id
            (insufficientMsg
              (desampleImageKeys imageKeys
                (totalImagesFor animation.gifType imageKeys.length : ℤ)).length
              imageKeys.length animation.gifType)) ∧
       hasMinimumImages .hourly 4 = false ∧ hasMinimumImages .hourly 5 = true ∧
       minimums .hourly = 5 ∧ minimums .sunrise = 3 ∧ minimums .sunset = 3 ∧
       minimums .full_day = 10 ∧ minimums .on_demand = 3) := by
  intro env animation webcam imageKeys hw hs he hi
  have hbody : runFinalizeBody env webcam animation =
      (if hasMinimumImages animation.gifType
          (desampleImageKeys imageKeys
            (totalImagesFor animation.gifType imageKeys.length : ℤ)).length then
        Except.ok ⟨animation.id, .pending,
          desampleImageKeys imageKeys
            (totalImagesFor animation.gifType imageKeys.length : ℤ), none⟩
      else
        Except.ok (failedOp animation.id
          (insufficientMsg
            (desampleImageKeys imageKeys
              (totalImagesFor animation.gifType imageKeys.length : ℤ)).length
            imageKeys.length animation.gifType))) := by
    unfold runFinalizeBody
    rw [if_neg (by exact fun h => h.elim hs he), hi]
  refine ⟨?_, ?_, by decide, by decide, rfl, rfl, rfl, rfl, rfl⟩
  · intro hmin
    simp only [processOneAnimation, hw, hbody, if_pos hmin]
  · intro hmin
    have hcond : ¬ (hasMinimumImages animation.gifType
        (desampleImageKeys imageKeys
          (totalImagesFor animation.gifType imageKeys.length : ℤ)).length = true) := by
      simp [hmin]
    simp only [processOneAnimation, hw, hbody, if_neg hcond]



theorem claim4_witness :
    processOneAnimation witnessEnv4 witnessRow4 =
      ⟨7, .pending, ["c/1.jpg", "c/2.jpg", "c/3.jpg"], none⟩ := by
  have h := (claim4_threshold_decides_ready_or_failed witnessEnv4 witnessRow4 denverWebcam
    ["c/1.jpg", "c/2.jpg", "c/3.jpg"] rfl (by decide) (by decide) rfl).1 (by decide)
  exact h.trans (by decide)

/-! ## Claim C5 -/

/-- C5.  Queue advancement isolates per-item failures: a batch containing an
arbitrary problem entry still produces exactly the independent update of
every other candidate, a missing owning webcam turns only that entry into
`'failed'` with the `Webcam not found` message, and an exception raised while
processing an entry (the `.error` outcome of its body) turns only that entry
into `'failed'` with the `Processing error: ...` message. -/
theorem claim5_per_item_failure_isolation :
    ∀ (env : FinalizeEnv) (pre post : List QueueRow) (bad : QueueRow),
      prepareAnimationsForPendingQueue env (pre ++ bad :: post) =
        prepareAnimationsForPendingQueue env pre ++
          processOneAnimation env bad :: prepareAnimationsForPendingQueue env post ∧
      (env.getWebcamById bad.webcamId = none →
        processOneAnimation env bad = failedOp bad.id "Webcam not found") ∧
      (∀ (webcam : WebcamDto) (e : String),
        env.getWebcamById bad.webcamId = some webcam →
        runFinalizeBody env webcam bad = Except.error e →
        processOneAnimation env bad = failedOp bad.id ("Processing error: " ++ e)) := by
  intro env pre post bad
  refine ⟨?_, ?_, ?_⟩
  · unfold prepareAnimationsForPendingQueue
    simp
  · intro hw
    simp only [processOneAnimation, hw]
  · intro webcam e hw hb
    simp only [processOneAnimation, hw, hb]



theorem claim5_witness :
    prepareAnimationsForPendingQueue witnessEnv5 [witnessRow4] =
      [failedOp 7 "Webcam not found"] := by
  have h2 := (claim5_per_item_failure_isolation witnessEnv5 [] [] witnessRow4).2.1 rfl
  have h1 := (claim5_per_item_failure_isolation witnessEnv5 [] [] witnessRow4).1
  rw [show ([] : List QueueRow) ++ witnessRow4 :: [] = [witnessRow4] from rfl] at h1
  rw [h1, h2]
  rfl

/-! ## Claim C6 -/

/-- C6.  `markAnimationCompleted(id)`: a missing entry yields the distinct
not-found failure; an entry that is not in the expected pending state yields a
conflict failure whose message names the entry's actual status, with the table
unchanged; a pending entry becomes `'completed'` with its `processedAt`
timestamp set; and success occurs only from the pending state (so completing
is legal only from the expected pending state). -/
theorem claim6_mark_complete_state_rules :
    ∀ (q : List QueueRow) (id : ℕ) (nowIso : String),
      ((q.find? fun r => r.id == id) = none →
        markAnimationCompleted q id nowIso =
          ({ success := false
             message := "Animation queue entry with ID " ++ toString id ++ " not found"
             queue_entry_id := none
             statusField := none }, q)) ∧
      (∀ entry, (q.find? fun r => r.id == id) = some entry → entry.status ≠ .pending →
        markAnimationCompleted q id nowIso =
          ({ success := false
             message := "Animation is not in pending status. Current status: " ++
               entry.status.str
             queue_entry_id := none
             statusField := none }, q)) ∧
      (∀ entry, (q.find? fun r => r.id == id) = some entry → entry.status = .pending →
        (markAnimationCompleted q id nowIso).1.success = true ∧
        (markAnimationCompleted q id nowIso).2 =
          q.map fun r =>
            if r.id == id then { r with status := .completed, processedAt := some nowIso }
            else r) ∧
      (∀ entry, (q.find? fun r => r.id == id) = some entry →
        (markAnimationCompleted q id nowIso).1.success = true → entry.status = .pending) := by
  intro q id nowIso
  refine ⟨?_, ?_, ?_, ?_⟩
  · intro hf
    simp only [markAnimationCompleted, hf]
  · intro entry hf hs
    simp only [markAnimationCompleted, hf, if_pos hs]
  · intro entry hf hs
    have hcond : ¬ (entry.status ≠ AnimationStatus.pending) := by simp [hs]
    simp only [markAnimationCompleted, hf, if_neg hcond]
    exact ⟨trivial, trivial⟩
  · intro entry hf hsucc
    by_contra hne
    simp only [markAnimationCompleted, hf, if_pos hne] at hsucc
    exact Bool.false_ne_true hsucc



theorem claim6_witness :
    markAnimationCompleted [witnessRow6] 9 "2025-09-24T13:05:00Z" =
      ({ success := false
         message := "Animation is not in pending status. Current status: processing"
         queue_entry_id := none
         statusField := none }, [witnessRow6]) := by
  have h := (claim6_mark_complete_state_rules [witnessRow6] 9 "2025-09-24T13:05:00Z").2.1
    witnessRow6 (by decide) (by decide)
  exact h.trans (by decide)

/-! ## Claim C7 -/





/-- C7 counterexample.  The claim says a sunrise job is emitted whenever both
sunrise-window bounds — `lightStart` and `sunriseEnd` — are finite.  On a day
whose sunset landmarks are NaN while the sunrise landmarks are finite, both
those bounds are finite, yet the code emits no sunrise job: its guard tests
`lightEnd` (a sunset-derived value), not `sunriseEnd`. -/
theorem claim7_counterexample :
    (lightStartOf stNoSunset).isSome = true ∧
    (sunriseEndOf stNoSunset).isSome = true ∧
    sunriseJobs defaultFmt denverWebcam stNoSunset = [] :=
  ⟨rfl, rfl, rfl⟩

/-- C7 as amended.  For every webcam and solar times, the scheduler emits the
sunrise job — with capture window `[⌊lightStart/1000⌋, ⌊sunriseEnd/1000⌋]`
seconds and scheduled time one minute after `sunriseEnd` — whenever
`lightStart` and `lightEnd` are both finite (not NaN), which is the guard the
code actually evaluates. -/
theorem claim7_sunrise_emission_guard :
    ∀ (fmt : DateFmt) (webcam : WebcamDto) (st : SolarTimes) (ls le se : ℚ),
      lightStartOf st = some ls → lightEndOf st = some le → sunriseEndOf st = some se →
      sunriseJobs fmt webcam st =
        [createAnimationEntry fmt webcam .sunrise (jsTrunc (se + 60000))
          ⌊ls / 1000⌋ ⌊se / 1000⌋] := by
  intro fmt webcam st ls le se h1 h2 h3
  simp only [sunriseJobs, h1, h2, h3, Option.getD_some]

theorem claim7_witness :
    sunriseJobs defaultFmt denverWebcam stAllFinite =
      [createAnimationEntry defaultFmt denverWebcam .sunrise
        (jsTrunc ((4500000 : ℚ) + 60000)) ⌊(-900000 : ℚ) / 1000⌋ ⌊(4500000 : ℚ) / 1000⌋] := by
  have h1 : lightStartOf stAllFinite = some (-900000) := by
    simp only [stAllFinite, lightStartOf, sunriseDurationOf, jsub, jmul, Option.some.injEq]
    norm_num
  have h2 : lightEndOf stAllFinite = some 40500000 := by
    simp only [stAllFinite, lightEndOf, sunsetDurationOf, jadd, jsub, jmul, Option.some.injEq]
    norm_num
  have h3 : sunriseEndOf stAllFinite = some 4500000 := by
    simp only [stAllFinite, sunriseEndOf, sunriseDurationOf, jadd, jsub, jmul,
      Option.some.injEq]
    norm_num
  exact claim7_sunrise_emission_guard defaultFmt denverWebcam stAllFinite
    (-900000) 40500000 4500000 h1 h2 h3

/-! ## Claim C8 -/

/-- C8.  The claim says every scheduled job's storage key has the form
`gifs/{park}/{webcam}/{type}/{yyyyMMdd}.{ext}` with hourly keys suffixed
`_{HH}`.  The code instead passes `scheduledTime.getTime()` — the epoch
millisecond count, where `generateAnimationStorageKey` declares
`dateStamp: string` — and omits the `hourStr` argument, so hourly keys end in
`_undefined`: concretely `createAnimationEntry` produces
`.../hourly/1758718800000_undefined.mp4` and `.../sunrise/1758718800000.mp4`,
and a job actually emitted by the sunrise scheduler block carries the epoch-ms
key `.../sunrise/4560000.mp4`, not a `yyyyMMdd` calendar-date key. -/
theorem claim8_storage_key_uses_epoch_ms :
    (createAnimationEntry defaultFmt denverWebcam .hourly 1758718800000
        1758715200 1758718800).gif_storage_key =
      some "gifs/Rocky Mountain/Denver Cam/hourly/1758718800000_undefined.mp4" ∧
    (createAnimationEntry defaultFmt denverWebcam .sunrise 1758718800000
        1758712841 1758718643).gif_storage_key =
      some "gifs/Rocky Mountain/Denver Cam/sunrise/1758718800000.mp4" ∧
    (sunriseJobs defaultFmt denverWebcam stAllFinite).map (fun e => e.gif_storage_key) =
      [some "gifs/Rocky Mountain/Denver Cam/sunrise/4560000.mp4"] := by
  refine ⟨rfl, rfl, ?_⟩
  have h1 : lightStartOf stAllFinite = some (-900000) := by
    simp only [stAllFinite, lightStartOf, sunriseDurationOf, jsub, jmul, Option.some.injEq]
    norm_num
  have h2 : lightEndOf stAllFinite = some 40500000 := by
    simp only [stAllFinite, lightEndOf, sunsetDurationOf, jadd, jsub, jmul, Option.some.injEq]
    norm_num
  have h3 : sunriseEndOf stAllFinite = some 4500000 := by
    simp only [stAllFinite, sunriseEndOf, sunriseDurationOf, jadd, jsub, jmul,
      Option.some.injEq]
    norm_num
  have hj : jsTrunc ((4500000 : ℚ) + 60000) = 4560000 := by
    simp only [jsTrunc]
    norm_num
  simp only [sunriseJobs, h1, h2, h3, Option.getD_some, List.map_cons, List.map_nil, hj]
  rfl

/-! ## Claim C10 -/

theorem digitsVal_eq_ofDigits (ds : List Char) :
    digitsVal ds = Nat.ofDigits 10 ((ds.map fun c => c.toNat - 48).reverse) := by
  induction ds using List.reverseRecOn with
  | nil => rfl
  | append_singleton as c ih =>
    have hfold : digitsVal (as ++ [c]) = 10 * digitsVal as + (c.toNat - 48) := by
      simp [digitsVal, List.foldl_append]
    rw [hfold, ih]
    simp [Nat.ofDigits_cons]
    ring

theorem takeWhile_append_all {α : Type} (p : α → Bool) (ds : List α) (x : α) (r : List α)
    (hds : ∀ c ∈ ds, p c = true) (hx : p x = false) :
    (ds ++ x :: r).takeWhile p = ds ∧ (ds ++ x :: r).dropWhile p = x :: r := by
  induction ds with
  | nil => simp [List.takeWhile_cons, List.dropWhile_cons, hx]
  | cons a as ih =>
    have ha : p a = true := hds a (by simp)
    have ih2 := ih fun c hc => hds c (by simp [hc])
    simp [List.takeWhile_cons, List.dropWhile_cons, ha, ih2.1, ih2.2]

/-- Success characterisation of the regex matcher: a match means the rest of
the filename after the greedy digit run is a dot followed by a nonempty
all-letter tail, and the digit run itself is nonempty. -/
theorem matchTimestampStem_some_iff (cs ds0 : List Char) :
    matchTimestampStem cs = some ds0 ↔
      ∃ tl, (cs.dropWhile fun c => c.isDigit) = '.' :: tl ∧
        ds0 = (cs.takeWhile fun c => c.isDigit) ∧ ds0 ≠ [] ∧ tl ≠ [] ∧
        tl.all (fun x => x.isAlpha) = true := by
  unfold matchTimestampStem
  cases hdrop : (cs.dropWhile fun c => c.isDigit) with
  | nil => simp [matchRest]
  | cons c tl =>
    simp only [matchRest]
    constructor
    · intro hm
      split_ifs at hm with hcond
      · rcases hcond with ⟨hc, hne, htl, hall⟩
        have hds : (cs.takeWhile fun c => c.isDigit) = ds0 := Option.some.inj hm
        subst hc
        exact ⟨tl, rfl, hds.symm, hds ▸ hne, htl, hall⟩
    · rintro ⟨tl2, htl2, hds, hne, htlne, hall⟩
      injection htl2 with hc htleq
      subst hc
      subst htleq
      rw [if_pos ⟨rfl, hds ▸ hne, htlne, hall⟩, hds]

/-- C10.  `extractTimestampFromImageKey` is total (never throws) and returns a
value exactly when the final `/`-separated segment of the key is one or more
decimal digits, a single dot, and one or more ASCII letters; the value is the
decimal integer encoded by the digit prefix.  Every other input — empty
string, missing extension, non-digit stem, digits in the extension — yields
`null`. -/
theorem claim10_extract_timestamp_characterization :
    ∀ (s : String) (n : ℕ),
      extractTimestampFromImageKey s = some n ↔
        ∃ ds ls : List Char,
          ds ≠ [] ∧ ls ≠ [] ∧ (∀ c ∈ ds, c.isDigit = true) ∧
          (∀ c ∈ ls, c.isAlpha = true) ∧
          (splitOnSlash s.toList).getLastD [] = ds ++ '.' :: ls ∧
          n = Nat.ofDigits 10 ((ds.map fun c => c.toNat - 48).reverse) := by
  intro s n
  constructor
  · intro h
    have h2 : (matchTimestampStem ((splitOnSlash s.toList).getLastD [])).map digitsVal
        = some n := h
    rcases hmap : matchTimestampStem ((splitOnSlash s.toList).getLastD []) with _ | ds0
    · rw [hmap] at h2; cases h2
    · rw [hmap] at h2
      have hn : digitsVal ds0 = n := Option.some.inj h2
      rcases (matchTimestampStem_some_iff _ _).1 hmap with ⟨tl, hdrop, hds, hne, htlne, hall⟩
      refine ⟨ds0, tl, hne, htlne, ?_, ?_, ?_, ?_⟩
      · intro c hc
        rw [hds] at hc
        exact List.mem_takeWhile_imp hc
      · intro c hc
        exact List.all_eq_true.1 hall c hc
      · rw [hds, ← hdrop]
        exact (List.takeWhile_append_dropWhile _ _).symm
      · rw [← hn, digitsVal_eq_ofDigits]
  · rintro ⟨ds, ls, hne, hlsne, hdig, halpha, hcs, hn⟩
    have hsplit := takeWhile_append_all (fun c => c.isDigit) ds '.' ls hdig (by decide)
    have hmt : matchTimestampStem ((splitOnSlash s.toList).getLastD []) = some ds := by
      rw [matchTimestampStem_some_iff]
      exact ⟨ls, by rw [hcs]; exact hsplit.2, by rw [hcs, hsplit.1], hne, hlsne,
        List.all_eq_true.2 halpha⟩
    show (matchTimestampStem ((splitOnSlash s.toList).getLastD [])).map digitsVal = some n
    rw [hmt]
    show some (digitsVal ds) = some n
    rw [digitsVal_eq_ofDigits, ← hn]

/-! ## Desampler lemmas: sorting, parsing, branch equations -/

theorem sortByTs_perm (l : List TimedKey) : List.Perm (sortByTs l) l :=
  List.perm_insertionSort tsLe l

theorem sortByTs_length (l : List TimedKey) : (sortByTs l).length = l.length :=
  List.length_insertionSort tsLe l

theorem sortByTs_sorted (l : List TimedKey) : List.Sorted tsLe (sortByTs l) :=
  List.sorted_insertionSort tsLe l

theorem parsedOf_coherent (keys : List String) :
    ∀ x ∈ parsedOf keys, extractTimestampFromImageKey x.key = some x.timestamp := by
  intro x hx
  rcases List.mem_filterMap.1 hx with ⟨k, _, hmap⟩
  rcases Option.map_eq_some'.1 hmap with ⟨t, ht, hxeq⟩
  rw [← hxeq]
  exact ht

theorem parsedOf_map_key_sublist (keys : List String) :
    List.Sublist ((parsedOf keys).map fun x => x.key) keys := by
  induction keys with
  | nil => simp [parsedOf]
  | cons k ks ih =>
    cases h : extractTimestampFromImageKey k with
    | none =>
      have hp : parsedOf (k :: ks) = parsedOf ks := by
        simp [parsedOf, List.filterMap_cons, h]
      rw [hp]
      exact ih.cons k
    | some t =>
      have hp : parsedOf (k :: ks) = ⟨t, k⟩ :: parsedOf ks := by
        simp [parsedOf, List.filterMap_cons, h]
      rw [hp, List.map_cons]
      exact ih.cons₂ k

theorem parsedOf_key_nodup (keys : List String) (h : keys.Nodup) :
    ((parsedOf keys).map fun x => x.key).Nodup :=
  (parsedOf_map_key_sublist keys).nodup h

/-- The timestamp a selected key encodes is the timestamp of its record. -/
theorem tsOfKey_of_coherent {x : TimedKey}
    (h : extractTimestampFromImageKey x.key = some x.timestamp) :
    tsOfKey x.key = x.timestamp := by
  simp [tsOfKey, h]

theorem chron_of_sorted_coherent (l : List TimedKey) (hs : List.Sorted tsLe l)
    (hc : ∀ x ∈ l, extractTimestampFromImageKey x.key = some x.timestamp) :
    ChronOrdered (l.map fun x => x.key) := by
  unfold ChronOrdered
  rw [List.pairwise_map]
  refine hs.imp_of_mem ?_
  intro a b ha hb hab
  rw [tsOfKey_of_coherent (hc a ha), tsOfKey_of_coherent (hc b hb)]
  exact hab

/-! Branch-equation lemmas for `desampleImageKeys`, one per exit point of the
source function. -/

theorem desample_nonpos (keys : List String) (n : ℤ) (h : n ≤ 0) :
    desampleImageKeys keys n = [] := by
  simp only [desampleImageKeys]
  rw [if_pos (Or.inr h)]

theorem desample_nil (n : ℤ) : desampleImageKeys [] n = [] := by
  simp only [desampleImageKeys]
  rw [if_pos (Or.inl (by simp))]

theorem desample_all (keys : List String) (n : ℤ) (h0 : 0 < n)
    (hle : (keys.length : ℤ) ≤ n) : desampleImageKeys keys n = keys := by
  by_cases hk : keys.length = 0
  · rw [List.length_eq_zero.1 hk, desample_nil]
  · simp only [desampleImageKeys]
    rw [if_neg (by push_neg; exact ⟨hk, h0⟩), if_pos hle]

theorem desample_parsed_le (keys : List String) (n : ℤ) (h0 : 0 < n)
    (hgt : n < (keys.length : ℤ)) (hple : ((parsedOf keys).length : ℤ) ≤ n) :
    desampleImageKeys keys n = (sortByTs (parsedOf keys)).map fun x => x.key := by
  simp only [desampleImageKeys]
  rw [if_neg (by push_neg; constructor <;> omega), if_neg (not_le.2 hgt)]
  by_cases hp : (parsedOf keys).length = 0
  · rw [if_pos hp, List.length_eq_zero.1 hp]
    rfl
  · rw [if_neg hp, if_pos (by rw [sortByTs_length]; exact_mod_cast hple)]

theorem desample_span0 (keys : List String) (n : ℤ) (h0 : 0 < n)
    (hgt : n < (keys.length : ℤ)) (hplt : n < ((parsedOf keys).length : ℤ))
    (hsp : ((sortByTs (parsedOf keys)).getLastD default).timestamp =
      ((sortByTs (parsedOf keys)).headD default).timestamp) :
    desampleImageKeys keys n =
      ((sortByTs (parsedOf keys)).take n.toNat).map fun x => x.key := by
  simp only [desampleImageKeys]
  rw [if_neg (by push_neg; constructor <;> omega), if_neg (not_le.2 hgt),
    if_neg (by omega), if_neg (by rw [sortByTs_length]; push_neg; exact_mod_cast hplt),
    if_pos (by omega)]

theorem desample_one (keys : List String) (n : ℤ)
    (hgt : n < (keys.length : ℤ)) (hplt : n < ((parsedOf keys).length : ℤ))
    (hsp : ((sortByTs (parsedOf keys)).getLastD default).timestamp ≠
      ((sortByTs (parsedOf keys)).headD default).timestamp)
    (hn : n = 1) :
    desampleImageKeys keys n = [((sortByTs (parsedOf keys)).headD default).key] := by
  subst hn
  simp only [desampleImageKeys]
  rw [if_neg (by push_neg; constructor <;> omega), if_neg (not_le.2 hgt),
    if_neg (by omega), if_neg (by rw [sortByTs_length]; push_neg; exact_mod_cast hplt),
    if_neg (by omega), if_pos (by simp)]

theorem desample_two (keys : List String) (n : ℤ)
    (hgt : n < (keys.length : ℤ)) (hplt : n < ((parsedOf keys).length : ℤ))
    (hsp : ((sortByTs (parsedOf keys)).getLastD default).timestamp ≠
      ((sortByTs (parsedOf keys)).headD default).timestamp)
    (hn : n = 2) :
    desampleImageKeys keys n =
      [((sortByTs (parsedOf keys)).headD default).key,
        ((sortByTs (parsedOf keys)).getLastD default).key] := by
  subst hn
  simp only [desampleImageKeys]
  rw [if_neg (by push_neg; constructor <;> omega), if_neg (not_le.2 hgt),
    if_neg (by omega), if_neg (by rw [sortByTs_length]; push_neg; exact_mod_cast hplt),
    if_neg (by omega), if_neg (by simp), if_pos (by simp)]
  rfl



theorem desample_main (keys : List String) (n : ℤ)
    (hgt : n < (keys.length : ℤ)) (hplt : n < ((parsedOf keys).length : ℤ))
    (hsp : ((sortByTs (parsedOf keys)).getLastD default).timestamp ≠
      ((sortByTs (parsedOf keys)).headD default).timestamp)
    (hn : 3 ≤ n) :
    desampleImageKeys keys n = mainResult keys n := by
  simp only [desampleImageKeys]
  rw [if_neg (by push_neg; constructor <;> omega), if_neg (not_le.2 hgt),
    if_neg (by omega), if_neg (by rw [sortByTs_length]; push_neg; exact_mod_cast hplt),
    if_neg (by omega), if_neg (by omega), if_neg (by omega)]
  unfold mainResult mainCands mainTarget
  rw [List.foldl_map]

/-! ## Claim C2 -/

/-- C2 counterexample.  The claim says that whenever the number of parseable
keys is at most `totalWanted`, the result is exactly the parseable keys in
chronological order with every unparseable key dropped.  But the source
checks `sourceImages.length <= totalImages` *before* parsing anything and
returns the input as-is: `desampleImageKeys(["x"], 1)` has zero parseable
keys yet returns `["x"]`, keeping the unparseable key instead of the empty
sorted-parseable list. -/
theorem claim2_counterexample :
    (parsedOf ["x"]).length = 0 ∧ desampleImageKeys ["x"] 1 = ["x"] ∧
    desampleImageKeys ["x"] 1 ≠ ((sortByTs (parsedOf ["x"])).map fun x => x.key) := by
  decide

/-- C2 (amended).  `desample(sourceKeys, totalWanted)`: if `totalWanted ≤ 0`
or `sourceKeys` is empty the result is the empty list; if
`sourceKeys.length ≤ totalWanted` the result is `sourceKeys` itself, in
original order and including unparseable keys (the source's early return);
and when `sourceKeys.length > totalWanted`, if the number of keys with
parseable timestamps is ≤ `totalWanted` the result equals exactly the
parseable keys sorted in chronological order, with every unparseable key
dropped (it is the stable sort of the parseable keys by timestamp, a
permutation of them, and chronologically ordered). -/
theorem claim2_desample_edge_cases :
    ∀ (keys : List String) (n : ℤ),
      (n ≤ 0 → desampleImageKeys keys n = []) ∧
      (desampleImageKeys [] n = []) ∧
      (0 < n → (keys.length : ℤ) ≤ n → desampleImageKeys keys n = keys) ∧
      (n < (keys.length : ℤ) → ((parsedOf keys).length : ℤ) ≤ n →
        desampleImageKeys keys n = ((sortByTs (parsedOf keys)).map fun x => x.key) ∧
        List.Perm (desampleImageKeys keys n) ((parsedOf keys).map fun x => x.key) ∧
        ChronOrdered (desampleImageKeys keys n)) := by
  intro keys n
  refine ⟨desample_nonpos keys n, desample_nil n, desample_all keys n, ?_⟩
  intro hlt hple
  by_cases h0 : 0 < n
  · have heq := desample_parsed_le keys n h0 hlt hple
    rw [heq]
    refine ⟨rfl, (sortByTs_perm (parsedOf keys)).map _, ?_⟩
    exact chron_of_sorted_coherent _ (sortByTs_sorted _) fun x hx =>
      parsedOf_coherent keys x ((sortByTs_perm (parsedOf keys)).mem_iff.1 hx)
  · have hn0 : n ≤ 0 := by omega
    have hp0 : parsedOf keys = [] := by
      have h1 : ((parsedOf keys).length : ℤ) ≤ 0 := le_trans hple hn0
      have h2 : (parsedOf keys).length = 0 := by omega
      exact List.length_eq_zero.1 h2
    rw [desample_nonpos keys n hn0, hp0]
    exact ⟨rfl, List.Perm.refl _, by simp [ChronOrdered]⟩

theorem claim2_witness :
    desampleImageKeys ["c/2.jpg", "bad", "c/1.jpg"] 2 = ["c/1.jpg", "c/2.jpg"] := by
  have h := (claim2_desample_edge_cases ["c/2.jpg", "bad", "c/1.jpg"] 2).2.2.2
    (by decide) (by decide)
  rw [h.1]
  decide

/-! ## Closest-pick scan lemmas

The selection loop picks, for each target timestamp, the first element of the
sorted list attaining the minimal absolute difference.  The key facts: the
pick splits the scanned list into a strictly-worse prefix and a no-better
suffix; for a sorted list the pick's timestamp is monotone in the target; and
two picks with equal timestamps are the same element. -/

theorem scanClosest_decomp (t : ℚ) (l : List TimedKey) :
    ∀ best : TimedKey,
      ∃ u v, best :: l = u ++ scanClosest t best l :: v ∧
        (∀ x ∈ u, dist t (scanClosest t best l) < dist t x) ∧
        (∀ x ∈ v, dist t (scanClosest t best l) ≤ dist t x) := by
  induction l with
  | nil =>
    intro best
    exact ⟨[], [], rfl, by simp, by simp⟩
  | cons x xs ih =>
    intro best
    by_cases hd : dist t x < dist t best
    · have hs : scanClosest t best (x :: xs) = scanClosest t x xs := by
        simp [scanClosest, hd]
      obtain ⟨u, v, hdec, hu, hv⟩ := ih x
      have hrle : dist t (scanClosest t x xs) ≤ dist t x := by
        have hx : x ∈ u ++ scanClosest t x xs :: v := by
          rw [← hdec]; exact List.mem_cons_self x xs
        rcases List.mem_append.1 hx with h1 | h1
        · exact le_of_lt (hu x h1)
        · rcases List.mem_cons.1 h1 with h2 | h2
          · exact le_of_eq (by rw [← h2])
          · exact hv x h2
      rw [hs]
      refine ⟨best :: u, v, ?_, ?_, hv⟩
      · rw [List.cons_append]
        exact congrArg (best :: ·) hdec
      · intro y hy
        rcases List.mem_cons.1 hy with h1 | h1
        · rw [h1]; exact lt_of_le_of_lt hrle hd
        · exact hu y h1
    · have hs : scanClosest t best (x :: xs) = scanClosest t best xs := by
        simp [scanClosest, hd]
      obtain ⟨u, v, hdec, hu, hv⟩ := ih best
      rw [hs]
      cases u with
      | nil =>
        injection hdec with h1 h2
        refine ⟨[], x :: v, ?_, by simp, ?_⟩
        · rw [List.nil_append, ← h1, h2]
        · intro y hy
          rcases List.mem_cons.1 hy with h1y | h1y
          · rw [h1y, ← h1]
            exact not_lt.1 hd
          · exact hv y h1y
      | cons b u2 =>
        injection hdec with h1 h2
        have hrb : dist t (scanClosest t best xs) < dist t best := by
          have hb := hu b (List.mem_cons_self b u2)
          rw [← h1] at hb
          exact hb
        refine ⟨best :: x :: u2, v, ?_, ?_, hv⟩
        · simp only [List.cons_append]
          exact congrArg (fun z => best :: x :: z) h2
        · intro y hy
          rcases List.mem_cons.1 hy with h1y | h1y
          · rw [h1y]; exact hrb
          · rcases List.mem_cons.1 h1y with h2y | h2y
            · rw [h2y]; exact lt_of_lt_of_le hrb (not_lt.1 hd)
            · exact hu y (List.mem_cons_of_mem b h2y)

theorem scanClosest_mem (t : ℚ) (l : List TimedKey) (best : TimedKey) :
    scanClosest t best l ∈ best :: l := by
  obtain ⟨u, v, hdec, _, _⟩ := scanClosest_decomp t l best
  rw [hdec]
  exact List.mem_append_right _ (List.mem_cons_self _ _)

theorem decomp_trichotomy {α : Type} {u v u2 v2 : List α} {r r2 : α}
    (h : u ++ r :: v = u2 ++ r2 :: v2) : r = r2 ∨ r ∈ u2 ∨ r2 ∈ u := by
  rcases List.append_eq_append_iff.1 h with ⟨a, ha1, ha2⟩ | ⟨c, hc1, hc2⟩
  · cases a with
    | nil =>
      rw [List.nil_append] at ha2
      exact Or.inl (List.head_eq_of_cons_eq ha2)
    | cons h0 a2 =>
      have hr : r = h0 := List.head_eq_of_cons_eq ha2
      refine Or.inr (Or.inl ?_)
      rw [ha1, hr]
      exact List.mem_append_right u (List.mem_cons_self h0 a2)
  · cases c with
    | nil =>
      rw [List.nil_append] at hc2
      exact Or.inl (List.head_eq_of_cons_eq hc2).symm
    | cons h0 c2 =>
      have hr : r2 = h0 := List.head_eq_of_cons_eq hc2
      refine Or.inr (Or.inr ?_)
      rw [hc1, hr]
      exact List.mem_append_right u2 (List.mem_cons_self h0 c2)

theorem dist_lt_dist_iff {a b t : ℚ} (h : b < a) :
    |a - t| < |b - t| ↔ b + a < 2 * t := by
  rcases abs_cases (a - t) with ⟨h1, h2⟩ | ⟨h1, h2⟩ <;>
    rcases abs_cases (b - t) with ⟨h3, h4⟩ | ⟨h3, h4⟩ <;>
      rw [h1, h3] <;> constructor <;> intro h5 <;> linarith

theorem scanClosest_ts_mono (l : List TimedKey) (best : TimedKey) {t t2 : ℚ}
    (hsorted : List.Pairwise tsLe (best :: l)) (htt : t ≤ t2) :
    (scanClosest t best l).timestamp ≤ (scanClosest t2 best l).timestamp := by
  obtain ⟨u, v, hdec, hu, hv⟩ := scanClosest_decomp t l best
  obtain ⟨u2, v2, hdec2, hu2, hv2⟩ := scanClosest_decomp t2 l best
  by_contra hlt
  push_neg at hlt
  rcases decomp_trichotomy (hdec.symm.trans hdec2) with h1 | h1 | h1
  · rw [h1] at hlt
    omega
  · have hsle := (List.pairwise_append.1 (hdec2 ▸ hsorted)).2.2
      (scanClosest t best l) h1 (scanClosest t2 best l) (List.mem_cons_self _ _)
    have : (scanClosest t best l).timestamp ≤ (scanClosest t2 best l).timestamp := hsle
    omega
  · have hd1 : dist t (scanClosest t best l) < dist t (scanClosest t2 best l) :=
      hu (scanClosest t2 best l) h1
    have hcast : ((scanClosest t2 best l).timestamp : ℚ) <
        ((scanClosest t best l).timestamp : ℚ) := by exact_mod_cast hlt
    simp only [dist] at hd1
    have hmid := (dist_lt_dist_iff hcast).1 hd1
    have hd2 : dist t2 (scanClosest t best l) < dist t2 (scanClosest t2 best l) := by
      simp only [dist]
      exact (dist_lt_dist_iff hcast).2 (by linarith)
    have hd3 : dist t2 (scanClosest t2 best l) ≤ dist t2 (scanClosest t best l) := by
      have hrmem : scanClosest t best l ∈ u2 ++ scanClosest t2 best l :: v2 := by
        rw [← hdec2]
        exact scanClosest_mem t l best
      rcases List.mem_append.1 hrmem with hm | hm
      · exact le_of_lt (hu2 _ hm)
      · rcases List.mem_cons.1 hm with hm2 | hm2
        · rw [hm2]
        · exact hv2 _ hm2
    exact absurd hd2 (not_lt.2 hd3)

theorem scanClosest_eq_of_ts_eq (l : List TimedKey) (best : TimedKey) {t t2 : ℚ}
    (h : (scanClosest t best l).timestamp = (scanClosest t2 best l).timestamp) :
    scanClosest t best l = scanClosest t2 best l := by
  obtain ⟨u, v, hdec, hu, hv⟩ := scanClosest_decomp t l best
  obtain ⟨u2, v2, hdec2, hu2, hv2⟩ := scanClosest_decomp t2 l best
  have hdeq : dist t2 (scanClosest t best l) = dist t2 (scanClosest t2 best l) := by
    simp only [dist, h]
  have hdeq1 : dist t (scanClosest t best l) = dist t (scanClosest t2 best l) := by
    simp only [dist, h]
  rcases decomp_trichotomy (hdec.symm.trans hdec2) with h1 | h1 | h1
  · exact h1
  · have := hu2 (scanClosest t best l) h1
    rw [hdeq] at this
    exact absurd this (lt_irrefl _)
  · have := hu (scanClosest t2 best l) h1
    rw [hdeq1] at this
    exact absurd this (lt_irrefl _)

theorem headD_mem {l : List TimedKey} (h : l ≠ []) : l.headD default ∈ l := by
  cases l with
  | nil => exact absurd rfl h
  | cons a as => exact List.mem_cons_self a as

theorem getLastD_mem {l : List TimedKey} (h : l ≠ []) : l.getLastD default ∈ l := by
  cases l with
  | nil => exact absurd rfl h
  | cons a as =>
    rw [List.getLastD_eq_getLast?, List.getLast?_eq_getLast (a :: as) (by simp)]
    simp [List.getLast_mem]

theorem sorted_headD_cons {l : List TimedKey} (hs : List.Sorted tsLe l) (h : l ≠ []) :
    List.Pairwise tsLe (l.headD default :: l) := by
  cases l with
  | nil => exact absurd rfl h
  | cons a as =>
    refine List.Pairwise.cons ?_ hs
    intro y hy
    rcases List.mem_cons.1 hy with h1 | h1
    · rw [h1]
      simp [tsLe]
    · exact (List.pairwise_cons.1 hs).1 y h1

theorem closestIn_mem {l : List TimedKey} (t : ℚ) (h : l ≠ []) : closestIn l t ∈ l := by
  unfold closestIn
  rcases List.mem_cons.1 (scanClosest_mem t l (l.headD default)) with h1 | h1
  · rw [h1]
    exact headD_mem h
  · exact h1

theorem closestIn_ts_mono {l : List TimedKey} {t t2 : ℚ}
    (hs : List.Sorted tsLe l) (h : l ≠ []) (htt : t ≤ t2) :
    (closestIn l t).timestamp ≤ (closestIn l t2).timestamp :=
  scanClosest_ts_mono l (l.headD default) (sorted_headD_cons hs h) htt

theorem closestIn_eq_of_ts_eq {l : List TimedKey} {t t2 : ℚ}
    (h : (closestIn l t).timestamp = (closestIn l t2).timestamp) :
    closestIn l t = closestIn l t2 :=
  scanClosest_eq_of_ts_eq l (l.headD default) h

/-! ## Selection-fold lemmas

The loop `if (!selectedImages.includes(key)) selectedImages.push(key)` is
`foldl selStep`.  It preserves the head and duplicate-freeness, is bounded in
length, keeps chronological order when candidates arrive with nondecreasing
timestamps, and once the designated last key has been pushed no later
candidate is pushed after it (candidate streams closed under its key). -/

theorem selFold_head? (cands : List TimedKey) :
    ∀ sel : List String, sel ≠ [] →
      (cands.foldl selStep sel).head? = sel.head? ∧ cands.foldl selStep sel ≠ [] := by
  induction cands with
  | nil => intro sel h; exact ⟨rfl, h⟩
  | cons c cs ih =>
    intro sel h
    rw [List.foldl_cons]
    have hstep : (selStep sel c).head? = sel.head? ∧ selStep sel c ≠ [] := by
      unfold selStep
      split_ifs
      · exact ⟨rfl, h⟩
      · cases sel with
        | nil => exact absurd rfl h
        | cons a as => exact ⟨by simp, by simp⟩
    obtain ⟨h1, h2⟩ := ih (selStep sel c) hstep.2
    exact ⟨h1.trans hstep.1, h2⟩

theorem selFold_nodup (cands : List TimedKey) :
    ∀ sel : List String, sel.Nodup → (cands.foldl selStep sel).Nodup := by
  induction cands with
  | nil => intro sel h; exact h
  | cons c cs ih =>
    intro sel h
    rw [List.foldl_cons]
    refine ih (selStep sel c) ?_
    unfold selStep
    split_ifs with hmem
    · exact h
    · rw [List.nodup_append]
      exact ⟨h, List.nodup_singleton _, fun a ha hb =>
        hmem (by rwa [List.mem_singleton.1 hb] at ha)⟩

theorem selFold_length_le (cands : List TimedKey) :
    ∀ sel : List String, (cands.foldl selStep sel).length ≤ sel.length + cands.length := by
  induction cands with
  | nil => intro sel; simp
  | cons c cs ih =>
    intro sel
    rw [List.foldl_cons]
    have hstep : (selStep sel c).length ≤ sel.length + 1 := by
      unfold selStep
      split_ifs
      · omega
      · simp
    have := ih (selStep sel c)
    simp only [List.length_cons]
    omega

theorem selFold_chron (cands : List TimedKey) :
    ∀ sel : List String, ChronOrdered sel →
      (∀ c ∈ cands, extractTimestampFromImageKey c.key = some c.timestamp) →
      (∀ s ∈ sel, ∀ c ∈ cands, tsOfKey s ≤ c.timestamp) →
      List.Pairwise tsLe cands →
      ChronOrdered (cands.foldl selStep sel) := by
  induction cands with
  | nil => intro sel h _ _ _; exact h
  | cons c cs ih =>
    intro sel hchron hcoh hbound hpair
    have hcoh_c : extractTimestampFromImageKey c.key = some c.timestamp :=
      hcoh c (List.mem_cons_self c cs)
    rw [List.foldl_cons]
    refine ih (selStep sel c) ?_ (fun c2 hc2 => hcoh c2 (List.mem_cons_of_mem c hc2)) ?_
      (List.pairwise_cons.1 hpair).2
    · unfold selStep
      split_ifs with hmem
      · exact hchron
      · unfold ChronOrdered
        rw [List.pairwise_append]
        refine ⟨hchron, List.pairwise_singleton _ _, ?_⟩
        intro a ha b hb
        rw [List.mem_singleton.1 hb, tsOfKey_of_coherent hcoh_c]
        exact hbound a ha c (List.mem_cons_self c cs)
    · intro s hs c2 hc2
      have hts : tsLe c c2 := (List.pairwise_cons.1 hpair).1 c2 hc2
      unfold selStep at hs
      split_ifs at hs with hmem
      · exact hbound s hs c2 (List.mem_cons_of_mem c hc2)
      · rcases List.mem_append.1 hs with h1 | h1
        · exact hbound s h1 c2 (List.mem_cons_of_mem c hc2)
        · rw [List.mem_singleton.1 h1, tsOfKey_of_coherent hcoh_c]
          exact hts

theorem selFold_mem (cands : List TimedKey) :
    ∀ (sel : List String) (x : String), x ∈ cands.foldl selStep sel →
      x ∈ sel ∨ ∃ c ∈ cands, x = c.key := by
  induction cands with
  | nil => intro sel x hx; exact Or.inl hx
  | cons c cs ih =>
    intro sel x hx
    rw [List.foldl_cons] at hx
    rcases ih (selStep sel c) x hx with h1 | ⟨c2, hc2, hk⟩
    · unfold selStep at h1
      split_ifs at h1 with hmem
      · exact Or.inl h1
      · rcases List.mem_append.1 h1 with h2 | h2
        · exact Or.inl h2
        · exact Or.inr ⟨c, List.mem_cons_self c cs, List.mem_singleton.1 h2⟩
    · exact Or.inr ⟨c2, List.mem_cons_of_mem c hc2, hk⟩

theorem selFold_all_mem_eq (cands : List TimedKey) :
    ∀ sel : List String, (∀ c ∈ cands, c.key ∈ sel) → cands.foldl selStep sel = sel := by
  induction cands with
  | nil => intro sel _; rfl
  | cons c cs ih =>
    intro sel hall
    rw [List.foldl_cons]
    have hstep : selStep sel c = sel := by
      unfold selStep
      rw [if_pos (hall c (List.mem_cons_self c cs))]
    rw [hstep]
    exact ih sel fun c2 hc2 => hall c2 (List.mem_cons_of_mem c hc2)

theorem selFold_absorb (K : String) (cands : List TimedKey) :
    ∀ sel : List String,
      List.Pairwise (fun a b => a.key = K → b.key = K) cands →
      K ∉ sel → K ∈ cands.foldl selStep sel →
      (cands.foldl selStep sel).getLast? = some K := by
  induction cands with
  | nil => intro sel _ hnot hmem; exact absurd hmem hnot
  | cons c cs ih =>
    intro sel hpair hnot hmem
    obtain ⟨hhead, htail⟩ := List.pairwise_cons.1 hpair
    by_cases hck : c.key = K
    · have hstep : selStep sel c = sel ++ [c.key] := by
        unfold selStep
        rw [if_neg (by rw [hck]; exact hnot)]
      have hall : ∀ c2 ∈ cs, c2.key ∈ sel ++ [c.key] := by
        intro c2 hc2
        rw [hhead c2 hc2 hck, ← hck]
        exact List.mem_append_right sel (List.mem_singleton_self _)
      have heq : (c :: cs).foldl selStep sel = sel ++ [c.key] := by
        rw [List.foldl_cons, hstep, selFold_all_mem_eq cs _ hall]
      rw [heq, List.getLast?_concat, hck]
    · have hnot2 : K ∉ selStep sel c := by
        unfold selStep
        split_ifs with hmemc
        · exact hnot
        · intro hK
          rcases List.mem_append.1 hK with h1 | h1
          · exact hnot h1
          · exact hck (List.mem_singleton.1 h1).symm
      rw [List.foldl_cons] at hmem ⊢
      exact ih (selStep sel c) htail hnot2 hmem

/-! ## Sorted-list bounds and main-branch candidate facts -/

theorem sorted_headD_le {l : List TimedKey} (hs : List.Sorted tsLe l) :
    ∀ x ∈ l, (l.headD default).timestamp ≤ x.timestamp := by
  cases l with
  | nil => simp
  | cons a as =>
    intro x hx
    rcases List.mem_cons.1 hx with h1 | h1
    · rw [h1]
      simp
    · exact (List.pairwise_cons.1 hs).1 x h1

theorem sorted_le_getLastD {l : List TimedKey} (hs : List.Sorted tsLe l) (hne : l ≠ []) :
    ∀ x ∈ l, x.timestamp ≤ (l.getLastD default).timestamp := by
  intro x hx
  have hgl : l.getLastD default = l.getLast hne := by
    rw [List.getLastD_eq_getLast?, List.getLast?_eq_getLast l hne]
    rfl
  rw [hgl]
  have hdecomp := List.dropLast_append_getLast hne
  rw [← hdecomp] at hx hs
  rcases List.mem_append.1 hx with h1 | h1
  · exact (List.pairwise_append.1 hs).2.2 x h1 _ (List.mem_singleton_self _)
  · rw [List.mem_singleton.1 h1]

/-- With duplicate-free input keys, the key function is injective on the
sorted parsed list. -/
theorem sorted_key_inj (keys : List String) (hnd : keys.Nodup) :
    ∀ x ∈ sortByTs (parsedOf keys), ∀ y ∈ sortByTs (parsedOf keys),
      x.key = y.key → x = y := by
  have hmap : ((sortByTs (parsedOf keys)).map fun x => x.key).Nodup :=
    ((sortByTs_perm (parsedOf keys)).map fun x => x.key).nodup_iff.2
      (parsedOf_key_nodup keys hnd)
  intro x hx y hy hxy
  exact List.inj_on_of_nodup_map hmap hx hy hxy

theorem mainTarget_mono (keys : List String) (n : ℤ)
    (hpos : 0 < (((((sortByTs (parsedOf keys)).getLastD default).timestamp : ℤ) -
        (((sortByTs (parsedOf keys)).headD default).timestamp : ℤ) : ℤ) : ℚ) /
      ((n : ℚ) - 1))
    {i j : ℕ} (hij : i ≤ j) : mainTarget keys n i ≤ mainTarget keys n j := by
  unfold mainTarget
  have hqij : (i : ℚ) ≤ (j : ℚ) := by exact_mod_cast hij
  have := mul_le_mul_of_nonneg_left hqij (le_of_lt hpos)
  linarith

theorem mainCands_mem (keys : List String) (n : ℤ)
    (hne : sortByTs (parsedOf keys) ≠ []) :
    ∀ c ∈ mainCands keys n, c ∈ sortByTs (parsedOf keys) := by
  intro c hc
  rcases List.mem_map.1 hc with ⟨i, _, hi⟩
  rw [← hi]
  exact closestIn_mem _ hne

theorem mainCands_pairwise_ts (keys : List String) (n : ℤ)
    (hs : List.Sorted tsLe (sortByTs (parsedOf keys)))
    (hne : sortByTs (parsedOf keys) ≠ [])
    (hpos : 0 < (((((sortByTs (parsedOf keys)).getLastD default).timestamp : ℤ) -
        (((sortByTs (parsedOf keys)).headD default).timestamp : ℤ) : ℤ) : ℚ) /
      ((n : ℚ) - 1)) :
    List.Pairwise tsLe (mainCands keys n) := by
  unfold mainCands
  rw [List.pairwise_map]
  refine (List.pairwise_lt_range' 1 (n - 2).toNat).imp ?_
  intro i j hij
  exact closestIn_ts_mono hs hne (mainTarget_mono keys n hpos (le_of_lt hij))

/-- Once some slot picks the last element of the sorted list, every later
slot picks it too (candidate stream closed under the last key). -/
theorem mainCands_absorb (keys : List String) (n : ℤ) (hnd : keys.Nodup)
    (hs : List.Sorted tsLe (sortByTs (parsedOf keys)))
    (hne : sortByTs (parsedOf keys) ≠ [])
    (hpos : 0 < (((((sortByTs (parsedOf keys)).getLastD default).timestamp : ℤ) -
        (((sortByTs (parsedOf keys)).headD default).timestamp : ℤ) : ℤ) : ℚ) /
      ((n : ℚ) - 1)) :
    List.Pairwise
      (fun a b => a.key = ((sortByTs (parsedOf keys)).getLastD default).key →
        b.key = ((sortByTs (parsedOf keys)).getLastD default).key)
      (mainCands keys n) := by
  unfold mainCands
  rw [List.pairwise_map]
  refine (List.pairwise_lt_range' 1 (n - 2).toNat).imp ?_
  intro i j hij hkey
  have hmemi : closestIn (sortByTs (parsedOf keys)) (mainTarget keys n i) ∈
      sortByTs (parsedOf keys) := closestIn_mem _ hne
  have hmemj : closestIn (sortByTs (parsedOf keys)) (mainTarget keys n j) ∈
      sortByTs (parsedOf keys) := closestIn_mem _ hne
  have hlastmem : (sortByTs (parsedOf keys)).getLastD default ∈ sortByTs (parsedOf keys) :=
    getLastD_mem hne
  have hieq : closestIn (sortByTs (parsedOf keys)) (mainTarget keys n i) =
      (sortByTs (parsedOf keys)).getLastD default :=
    sorted_key_inj keys hnd _ hmemi _ hlastmem hkey
  have hts_i : (closestIn (sortByTs (parsedOf keys)) (mainTarget keys n i)).timestamp =
      ((sortByTs (parsedOf keys)).getLastD default).timestamp := by rw [hieq]
  have hts_ge : (closestIn (sortByTs (parsedOf keys)) (mainTarget keys n i)).timestamp ≤
      (closestIn (sortByTs (parsedOf keys)) (mainTarget keys n j)).timestamp :=
    closestIn_ts_mono hs hne (mainTarget_mono keys n hpos (le_of_lt hij))
  have hts_le : (closestIn (sortByTs (parsedOf keys)) (mainTarget keys n j)).timestamp ≤
      ((sortByTs (parsedOf keys)).getLastD default).timestamp :=
    sorted_le_getLastD hs hne _ hmemj
  have hts_j : (closestIn (sortByTs (parsedOf keys)) (mainTarget keys n i)).timestamp =
      (closestIn (sortByTs (parsedOf keys)) (mainTarget keys n j)).timestamp := by omega
  have := closestIn_eq_of_ts_eq hts_j
  rw [← this, hieq]

/-! ## Properties of the main-branch selection result -/

theorem S_coherent (keys : List String) :
    ∀ x ∈ sortByTs (parsedOf keys),
      extractTimestampFromImageKey x.key = some x.timestamp := fun x hx =>
  parsedOf_coherent keys x ((sortByTs_perm (parsedOf keys)).mem_iff.1 hx)

theorem nodup_head_ne_getLast {l : List TimedKey} (hnd2 : l.Nodup) (h2 : 2 ≤ l.length)
    (hinj : ∀ x ∈ l, ∀ y ∈ l, x.key = y.key → x = y) :
    (l.headD default).key ≠ (l.getLastD default).key := by
  cases l with
  | nil => simp at h2
  | cons a as =>
    cases as with
    | nil => simp at h2
    | cons b bs =>
      intro hkey
      have hne : (a :: b :: bs : List TimedKey) ≠ [] := by simp
      have heq := hinj _ (headD_mem hne) _ (getLastD_mem hne) hkey
      have hhead : ((a :: b :: bs).headD default) = a := rfl
      have hlast_mem : ((a :: b :: bs).getLastD default) ∈ b :: bs := by
        rw [List.getLastD_eq_getLast?, List.getLast?_cons_cons,
          List.getLast?_eq_getLast (b :: bs) (by simp)]
        simp [List.getLast_mem]
      rw [hhead] at heq
      rw [← heq] at hlast_mem
      exact (List.nodup_cons.1 hnd2).1 hlast_mem

theorem first_last_key_ne (keys : List String) (hnd : keys.Nodup)
    (h2 : 2 ≤ (sortByTs (parsedOf keys)).length) :
    ((sortByTs (parsedOf keys)).headD default).key ≠
      ((sortByTs (parsedOf keys)).getLastD default).key := by
  have hmap : ((sortByTs (parsedOf keys)).map fun x => x.key).Nodup :=
    ((sortByTs_perm (parsedOf keys)).map fun x => x.key).nodup_iff.2
      (parsedOf_key_nodup keys hnd)
  exact nodup_head_ne_getLast (hmap.of_map _) h2 (sorted_key_inj keys hnd)

theorem mainResult_length (keys : List String) (n : ℤ) (hn3 : 3 ≤ n) :
    (mainResult keys n).length ≤ n.toNat := by
  simp only [mainResult]
  have hsel := selFold_length_le (mainCands keys n)
    [((sortByTs (parsedOf keys)).headD default).key]
  have hc : (mainCands keys n).length = (n - 2).toNat := by
    unfold mainCands
    rw [List.length_map, List.length_range']
  rw [hc] at hsel
  simp only [List.length_singleton] at hsel
  split_ifs with hmem
  · omega
  · rw [List.length_append, List.length_singleton]
    omega

theorem mainResult_head (keys : List String) (n : ℤ) :
    (mainResult keys n).head? =
      some ((sortByTs (parsedOf keys)).headD default).key := by
  simp only [mainResult]
  obtain ⟨hh, hne⟩ := selFold_head? (mainCands keys n)
    [((sortByTs (parsedOf keys)).headD default).key] (by simp)
  split_ifs with hmem
  · rw [hh]
    rfl
  · rw [List.head?_append, hh]
    rfl

theorem mainResult_nodup (keys : List String) (n : ℤ) :
    (mainResult keys n).Nodup := by
  simp only [mainResult]
  have hnd_sel := selFold_nodup (mainCands keys n)
    [((sortByTs (parsedOf keys)).headD default).key] (List.nodup_singleton _)
  split_ifs with hmem
  · exact hnd_sel
  · rw [List.nodup_append]
    exact ⟨hnd_sel, List.nodup_singleton _, fun a ha hb =>
      hmem (by rwa [List.mem_singleton.1 hb] at ha)⟩

theorem mainResult_chron (keys : List String) (n : ℤ)
    (hne : sortByTs (parsedOf keys) ≠ [])
    (hpos : 0 < (((((sortByTs (parsedOf keys)).getLastD default).timestamp : ℤ) -
        (((sortByTs (parsedOf keys)).headD default).timestamp : ℤ) : ℤ) : ℚ) /
      ((n : ℚ) - 1)) :
    ChronOrdered (mainResult keys n) := by
  have hs := sortByTs_sorted (parsedOf keys)
  have hcoh := S_coherent keys
  have hheadmem := headD_mem hne
  have hlastmem := getLastD_mem hne
  have hbound0 : ∀ s ∈ [((sortByTs (parsedOf keys)).headD default).key],
      ∀ c ∈ mainCands keys n, tsOfKey s ≤ c.timestamp := by
    intro s hs2 c hc
    rw [List.mem_singleton.1 hs2, tsOfKey_of_coherent (hcoh _ hheadmem)]
    exact sorted_headD_le hs c (mainCands_mem keys n hne c hc)
  have hchron_sel : ChronOrdered ((mainCands keys n).foldl selStep
      [((sortByTs (parsedOf keys)).headD default).key]) :=
    selFold_chron (mainCands keys n) _ (List.pairwise_singleton _ _)
      (fun c hc => hcoh c (mainCands_mem keys n hne c hc)) hbound0
      (mainCands_pairwise_ts keys n hs hne hpos)
  simp only [mainResult]
  split_ifs with hmem
  · exact hchron_sel
  · unfold ChronOrdered
    rw [List.pairwise_append]
    refine ⟨hchron_sel, List.pairwise_singleton _ _, ?_⟩
    intro a ha b hb
    rw [List.mem_singleton.1 hb, tsOfKey_of_coherent (hcoh _ hlastmem)]
    rcases selFold_mem (mainCands keys n) _ a ha with h1 | ⟨c, hc, hkey⟩
    · rw [List.mem_singleton.1 h1, tsOfKey_of_coherent (hcoh _ hheadmem)]
      exact sorted_le_getLastD hs hne _ hheadmem
    · rw [hkey, tsOfKey_of_coherent (hcoh c (mainCands_mem keys n hne c hc))]
      exact sorted_le_getLastD hs hne _ (mainCands_mem keys n hne c hc)

theorem mainResult_last (keys : List String) (n : ℤ) (hnd : keys.Nodup)
    (hne : sortByTs (parsedOf keys) ≠ [])
    (h2 : 2 ≤ (sortByTs (parsedOf keys)).length)
    (hpos : 0 < (((((sortByTs (parsedOf keys)).getLastD default).timestamp : ℤ) -
        (((sortByTs (parsedOf keys)).headD default).timestamp : ℤ) : ℤ) : ℚ) /
      ((n : ℚ) - 1)) :
    (mainResult keys n).getLast? =
      some ((sortByTs (parsedOf keys)).getLastD default).key := by
  have hs := sortByTs_sorted (parsedOf keys)
  simp only [mainResult]
  split_ifs with hmem
  · refine selFold_absorb _ (mainCands keys n) _
      (mainCands_absorb keys n hnd hs hne hpos) ?_ hmem
    intro hK
    exact first_last_key_ne keys hnd h2 (List.mem_singleton.1 hK).symm
  · rw [List.getLast?_concat]

theorem parsedOf_length_le (keys : List String) : (parsedOf keys).length ≤ keys.length :=
  List.length_filterMap_le _ keys

theorem span_pos_of (keys : List String) (n : ℤ)
    (hne : sortByTs (parsedOf keys) ≠ [])
    (hsp : ((sortByTs (parsedOf keys)).getLastD default).timestamp ≠
      ((sortByTs (parsedOf keys)).headD default).timestamp)
    (hn2 : 2 ≤ n) :
    0 < (((((sortByTs (parsedOf keys)).getLastD default).timestamp : ℤ) -
        (((sortByTs (parsedOf keys)).headD default).timestamp : ℤ) : ℤ) : ℚ) /
      ((n : ℚ) - 1) := by
  have hle := sorted_headD_le (sortByTs_sorted (parsedOf keys)) _ (getLastD_mem hne)
  apply div_pos
  · have h0 : (0 : ℤ) < (((sortByTs (parsedOf keys)).getLastD default).timestamp : ℤ) -
        (((sortByTs (parsedOf keys)).headD default).timestamp : ℤ) := by omega
    exact_mod_cast h0
  · have h2 : (2 : ℚ) ≤ (n : ℚ) := by exact_mod_cast hn2
    linarith

/-! ## Claim C3 -/

/-- C3 counterexample.  The claim asserts the result is always
chronologically ordered, but with `sourceKeys.length ≤ totalWanted` the
source returns the input unchanged: two parseable keys given in reverse
order come back in reverse order. -/
theorem claim3_counterexample :
    desampleImageKeys ["c/2.jpg", "c/1.jpg"] 2 = ["c/2.jpg", "c/1.jpg"] ∧
    ¬ ChronOrdered (desampleImageKeys ["c/2.jpg", "c/1.jpg"] 2) := by
  decide

/-- C3 (amended).  For every `sourceKeys` and `totalWanted`, the result's
length is at most `totalWanted`; when `sourceKeys` has no duplicate keys and
`totalWanted < sourceKeys.length` (so the verbatim early return is not taken)
the result is chronologically ordered by encoded timestamp and has no
duplicate keys; when moreover there are more parseable keys than
`totalWanted`, the time span is nonzero and `totalWanted ≥ 2`, the
chronologically first key is the first element of the result and the
chronologically last key is its last element; and for `totalWanted = 1` (with
more than one parseable key and nonzero span) only the first key is
returned. -/
theorem claim3_desample_order_dedup_bounds :
    ∀ (keys : List String) (n : ℤ),
      (desampleImageKeys keys n).length ≤ n.toNat ∧
      (keys.Nodup → n < (keys.length : ℤ) →
        ChronOrdered (desampleImageKeys keys n) ∧ (desampleImageKeys keys n).Nodup) ∧
      (keys.Nodup → n < ((parsedOf keys).length : ℤ) →
        ((sortByTs (parsedOf keys)).getLastD default).timestamp ≠
          ((sortByTs (parsedOf keys)).headD default).timestamp → 2 ≤ n →
        (desampleImageKeys keys n).head? =
          some ((sortByTs (parsedOf keys)).headD default).key ∧
        (desampleImageKeys keys n).getLast? =
          some ((sortByTs (parsedOf keys)).getLastD default).key) ∧
      (1 < ((parsedOf keys).length : ℤ) →
        ((sortByTs (parsedOf keys)).getLastD default).timestamp ≠
          ((sortByTs (parsedOf keys)).headD default).timestamp →
        desampleImageKeys keys 1 = [((sortByTs (parsedOf keys)).headD default).key]) := by
  intro keys n
  have hkl : ((parsedOf keys).length : ℤ) ≤ (keys.length : ℤ) := by
    exact_mod_cast parsedOf_length_le keys
  have hSlen := sortByTs_length (parsedOf keys)
  refine ⟨?_, ?_, ?_, ?_⟩
  · -- length bound
    by_cases h0 : n ≤ 0
    · rw [desample_nonpos keys n h0]
      simp
    push_neg at h0
    by_cases hle : (keys.length : ℤ) ≤ n
    · rw [desample_all keys n h0 hle]
      omega
    push_neg at hle
    by_cases hple : ((parsedOf keys).length : ℤ) ≤ n
    · rw [desample_parsed_le keys n h0 hle hple]
      rw [List.length_map, hSlen]
      omega
    push_neg at hple
    by_cases hspan : ((sortByTs (parsedOf keys)).getLastD default).timestamp =
        ((sortByTs (parsedOf keys)).headD default).timestamp
    · rw [desample_span0 keys n h0 hle hple hspan]
      rw [List.length_map, List.length_take]
      omega
    · by_cases hn1 : n = 1
      · rw [desample_one keys n hle hple hspan hn1]
        simp
        omega
      · by_cases hn2 : n = 2
        · rw [desample_two keys n hle hple hspan hn2]
          simp
          omega
        · exact (desample_main keys n hle hple hspan (by omega)) ▸
            mainResult_length keys n (by omega)
  · -- chronological order and no duplicates
    intro hnd hlt
    by_cases h0 : n ≤ 0
    · rw [desample_nonpos keys n h0]
      exact ⟨by simp [ChronOrdered], List.nodup_nil⟩
    push_neg at h0
    by_cases hple : ((parsedOf keys).length : ℤ) ≤ n
    · rw [desample_parsed_le keys n h0 hlt hple]
      refine ⟨chron_of_sorted_coherent _ (sortByTs_sorted _) (S_coherent keys), ?_⟩
      exact ((sortByTs_perm _).map fun x => x.key).nodup_iff.2 (parsedOf_key_nodup keys hnd)
    push_neg at hple
    have hSne : sortByTs (parsedOf keys) ≠ [] := by
      intro h
      rw [h] at hSlen
      simp at hSlen
      omega
    have hSmapnd : ((sortByTs (parsedOf keys)).map fun x => x.key).Nodup :=
      ((sortByTs_perm _).map fun x => x.key).nodup_iff.2 (parsedOf_key_nodup keys hnd)
    by_cases hspan : ((sortByTs (parsedOf keys)).getLastD default).timestamp =
        ((sortByTs (parsedOf keys)).headD default).timestamp
    · rw [desample_span0 keys n h0 hlt hple hspan]
      constructor
      · exact chron_of_sorted_coherent _
          (List.Pairwise.sublist (List.take_sublist _ _) (sortByTs_sorted _))
          fun x hx => S_coherent keys x (List.take_subset _ _ hx)
      · exact (List.Sublist.map (fun x => x.key)
          (List.take_sublist n.toNat (sortByTs (parsedOf keys)))).nodup hSmapnd
    · by_cases hn1 : n = 1
      · rw [desample_one keys n hlt hple hspan hn1]
        exact ⟨List.pairwise_singleton _ _, List.nodup_singleton _⟩
      · by_cases hn2 : n = 2
        · rw [desample_two keys n hlt hple hspan hn2]
          have h2S : 2 ≤ (sortByTs (parsedOf keys)).length := by omega
          constructor
          · unfold ChronOrdered
            refine List.pairwise_cons.2 ⟨?_, List.pairwise_singleton _ _⟩
            intro b hb
            rw [List.mem_singleton.1 hb,
              tsOfKey_of_coherent (S_coherent keys _ (headD_mem hSne)),
              tsOfKey_of_coherent (S_coherent keys _ (getLastD_mem hSne))]
            exact sorted_headD_le (sortByTs_sorted _) _ (getLastD_mem hSne)
          · refine List.nodup_cons.2 ⟨?_, List.nodup_singleton _⟩
            intro hmem
            exact first_last_key_ne keys hnd h2S (List.mem_singleton.1 hmem)
        · have hn3 : 3 ≤ n := by omega
          rw [desample_main keys n hlt hple hspan hn3]
          have hpos := span_pos_of keys n hSne hspan (by omega)
          exact ⟨mainResult_chron keys n hSne hpos, mainResult_nodup keys n⟩
  · -- first and last elements
    intro hnd hplt hspan hn2
    have hgt : n < (keys.length : ℤ) := by omega
    have hSne : sortByTs (parsedOf keys) ≠ [] := by
      intro h
      rw [h] at hSlen
      simp at hSlen
      omega
    by_cases hn2' : n = 2
    · rw [desample_two keys n hgt hplt hspan hn2']
      exact ⟨rfl, by simp⟩
    · have hn3 : 3 ≤ n := by omega
      have hpos := span_pos_of keys n hSne hspan hn2
      have h2S : 2 ≤ (sortByTs (parsedOf keys)).length := by omega
      rw [desample_main keys n hgt hplt hspan hn3]
      exact ⟨mainResult_head keys n, mainResult_last keys n hnd hSne h2S hpos⟩
  · -- totalWanted = 1
    intro hplt hspan
    exact desample_one keys 1 (by omega) (by exact_mod_cast hplt) hspan rfl

theorem claim3_witness :
    (desampleImageKeys
      ["k/10.jpg", "k/20.jpg", "k/30.jpg", "k/40.jpg", "k/50.jpg"] 3).head? =
        some "k/10.jpg" ∧
    (desampleImageKeys
      ["k/10.jpg", "k/20.jpg", "k/30.jpg", "k/40.jpg", "k/50.jpg"] 3).getLast? =
        some "k/50.jpg" := by
  have h := (claim3_desample_order_dedup_bounds
    ["k/10.jpg", "k/20.jpg", "k/30.jpg", "k/40.jpg", "k/50.jpg"] 3).2.2.1
    (by decide) (by decide) (by decide) (by decide)
  exact ⟨h.1.trans (by decide), h.2.trans (by decide)⟩

end NpsAnim
